import Mathlib

/-!
Verification of the Nyunda interpreter core (src/src/ast_nodes.py,
src/src/optimizer.py, src/src/evaluator.py, src/src/interpreter.py).

Modelling conventions:
* Python numbers (the `float` values held by `NumberNode`) are modelled as
  exact rationals `ℚ`; every literal produced by the parser and every
  arithmetic result reached by the claims is exactly representable.
* Python exceptions are modelled as `Option`/explicit error results.
* `a ** b` is modelled for integer exponents (the only exponents the
  optimizer rules and the claims exercise); a non-integer exponent is
  modelled as an unsupported operation.
* `hash`-based keys of the source (state signatures, memo keys) are
  modelled by the underlying structural data itself, i.e. hashing is
  assumed collision-free, which is the stated intent of the source.
* The `heapq` priority queue (Python standard library, not part of this
  repository) is modelled by its contract: `heappush` adds one element,
  `heappop` removes and returns a minimal element under
  `OptimizationState.__lt__`; our executable model pops the first minimal
  element in insertion order, which coincides with `heapq` on the concrete
  queues appearing in the theorems below.
-/

/-- Runtime values: Python floats (as exact rationals), strings, booleans. -/
inductive Value : Type where
  | num  : ℚ → Value
  | str  : String → Value
  | bool : Bool → Value
deriving DecidableEq, Repr

/-- AST of src/src/ast_nodes.py.  `cost` is recomputed by `cost` below
(the Python field is set once from `calculate_cost` at construction and
never mutated, so it is a function of the shape). -/
inductive AST : Type where
  | num    : ℚ → AST
  | str    : String → AST
  | var    : String → AST
  | binOp  : AST → String → AST → AST
  | assign : String → AST → AST
  | ifN    : AST → List AST → Option (List AST) → AST
  | whileN : AST → List AST → AST
  | printN : AST → AST
  | block  : List AST → AST
deriving Repr

mutual

/-- Structural equality of ASTs (the source compares states through
`str(hash(str(ast)))`; `str` of the dataclass tree is injective on the
shape and values, so signature equality is structural equality). -/
def astBeq : AST → AST → Bool
  | AST.num a, AST.num b => a == b
  | AST.str a, AST.str b => a == b
  | AST.var a, AST.var b => a == b
  | AST.binOp l1 o1 r1, AST.binOp l2 o2 r2 =>
      astBeq l1 l2 && o1 == o2 && astBeq r1 r2
  | AST.assign n1 v1, AST.assign n2 v2 => n1 == n2 && astBeq v1 v2
  | AST.ifN c1 t1 e1, AST.ifN c2 t2 e2 =>
      astBeq c1 c2 && astListBeq t1 t2 &&
        (match e1, e2 with
          | none, none => true
          | some a, some b => astListBeq a b
          | _, _ => false)
  | AST.whileN c1 b1, AST.whileN c2 b2 => astBeq c1 c2 && astListBeq b1 b2
  | AST.printN e1, AST.printN e2 => astBeq e1 e2
  | AST.block s1, AST.block s2 => astListBeq s1 s2
  | _, _ => false

/-- Structural equality on statement lists. -/
def astListBeq : List AST → List AST → Bool
  | [], [] => true
  | a :: as', b :: bs' => astBeq a b && astListBeq as' bs'
  | _, _ => false

end

/-- Operator cost table from `BinaryOpNode.calculate_cost`. -/
def opCost (op : String) : ℕ :=
  if op = "**" then 20
  else if op = "*" then 8
  else if op = "/" then 10
  else if op = "%" then 12
  else if op = "+" then 3
  else if op = "-" then 3
  else if op = "==" then 4
  else if op = "!=" then 4
  else if op = "<" then 4
  else if op = ">" then 4
  else if op = "<=" then 4
  else if op = ">=" then 4
  else 5

mutual

/-- `calculate_cost` of src/src/ast_nodes.py (costs are non-negative ints). -/
def cost : AST → ℕ
  | AST.num _ => 1
  | AST.str _ => 1
  | AST.var _ => 2
  | AST.binOp l op r => cost l + cost r + opCost op
  | AST.assign _ v => 5 + cost v
  | AST.ifN c t e =>
      15 + cost c + costList t + (match e with
        | some es => costList es
        | none => 0)
  | AST.whileN c b => (cost c + costList b) * 10
  | AST.printN e => 8 + cost e
  | AST.block stmts => costList stmts

/-- Sum of statement costs (the `sum(...)` comprehensions of the source). -/
def costList : List AST → ℕ
  | [] => 0
  | s :: rest => cost s + costList rest

end

/-- Python float `/`: division by zero raises `ZeroDivisionError`. -/
def pyDiv (a b : ℚ) : Option ℚ :=
  if b = 0 then none else some (a / b)

/-- Python float `%`: `a % b = a - b * floor(a / b)` for `b ≠ 0`;
`% 0` raises `ZeroDivisionError`. -/
def pyMod (a b : ℚ) : Option ℚ :=
  if b = 0 then none else some (a - b * (⌊a / b⌋ : ℤ))

/-- Python `**` restricted to integer exponents: `0 ** negative` raises
`ZeroDivisionError`; non-integer exponents are outside the model. -/
def pyPow (a b : ℚ) : Option ℚ :=
  if b.den = 1 then
    if 0 ≤ b.num then some (a ^ b.num.toNat)
    else if a = 0 then none
    else some ((a ^ (-b.num).toNat)⁻¹)
  else none

/-- Arithmetic on numbers shared by the evaluators' `op_map`s and the
optimizer's constant-folding `op_map`. -/
def pyArith (op : String) (a b : ℚ) : Option ℚ :=
  if op = "+" then some (a + b)
  else if op = "-" then some (a - b)
  else if op = "*" then some (a * b)
  else if op = "/" then pyDiv a b
  else if op = "%" then pyMod a b
  else if op = "**" then pyPow a b
  else none

/-- Python class name of a node (used in error messages and memo keys). -/
def className : AST → String
  | AST.num _ => "NumberNode"
  | AST.str _ => "StringNode"
  | AST.var _ => "VariableNode"
  | AST.binOp _ _ _ => "BinaryOpNode"
  | AST.assign _ _ => "AssignmentNode"
  | AST.ifN _ _ _ => "IfNode"
  | AST.whileN _ _ => "WhileNode"
  | AST.printN _ => "PrintNode"
  | AST.block _ => "BlockNode"

/-- Python numeric coercion for arithmetic/comparison: floats are
themselves, `bool` is an `int` subclass (`True = 1`, `False = 0`),
strings do not coerce. -/
def toNumOpt : Value → Option ℚ
  | Value.num q => some q
  | Value.bool b => some (if b then 1 else 0)
  | Value.str _ => none

/-- Whether a value is a Python `str`. -/
def isStr : Value → Bool
  | Value.str _ => true
  | _ => false

/-- Python `str(...)` of a value.  `NumberNode` values are floats, so whole
numbers render with a trailing `.0` (non-integer rationals are rendered
with Lean syntax; no claim depends on that corner). -/
def pyStr : Value → String
  | Value.num q => if q.den = 1 then toString q.num ++ ".0" else toString q
  | Value.str s => s
  | Value.bool b => if b then "True" else "False"

/-- Python type name of a value (for TypeError messages). -/
def pyTypeName : Value → String
  | Value.num _ => "float"
  | Value.str _ => "str"
  | Value.bool _ => "bool"

/-- Python `==` on our values: numbers and booleans compare numerically,
strings compare as strings, a string never equals a number. -/
def pyEqB (a b : Value) : Bool :=
  match toNumOpt a, toNumOpt b with
  | some x, some y => x == y
  | _, _ =>
    match a, b with
    | Value.str s, Value.str t => s == t
    | _, _ => false

/-- Outcome of applying one `op_map` operator to two values. -/
inductive OpOut : Type where
  | ok        : Value → OpOut
  | typeErr   : OpOut
  | zeroDiv   : OpOut
  | unknownOp : OpOut
deriving DecidableEq, Repr

/-- The operators present in both evaluators' `op_map` dictionaries. -/
def opInMap (op : String) : Bool :=
  op == "+" || op == "-" || op == "*" || op == "/" || op == "%" || op == "**" ||
  op == "==" || op == "!=" || op == "<" || op == ">" || op == "<=" || op == ">="

/-- Applying one `op_map` lambda to two Python values (shared by both
evaluators): arithmetic coerces numbers/booleans, `+` concatenates two
strings, ordering compares two numbers or two strings, `==`/`!=` follow
`pyEqB`.  `typeErr` models `TypeError`, `zeroDiv` models
`ZeroDivisionError` (also covering the modelled-unsupported non-integer
exponent, which no claim reaches). -/
def opResult (op : String) (a b : Value) : OpOut :=
  if op == "==" then OpOut.ok (Value.bool (pyEqB a b))
  else if op == "!=" then OpOut.ok (Value.bool (!(pyEqB a b)))
  else if op == "<" || op == ">" || op == "<=" || op == ">=" then
    match toNumOpt a, toNumOpt b with
    | some x, some y =>
        if op == "<" then OpOut.ok (Value.bool (decide (x < y)))
        else if op == ">" then OpOut.ok (Value.bool (decide (y < x)))
        else if op == "<=" then OpOut.ok (Value.bool (decide (x ≤ y)))
        else OpOut.ok (Value.bool (decide (y ≤ x)))
    | _, _ =>
      match a, b with
      | Value.str s, Value.str t =>
          if op == "<" then OpOut.ok (Value.bool (decide (s < t)))
          else if op == ">" then OpOut.ok (Value.bool (decide (t < s)))
          else if op == "<=" then OpOut.ok (Value.bool (!(decide (t < s))))
          else OpOut.ok (Value.bool (!(decide (s < t))))
      | _, _ => OpOut.typeErr
  else if op == "+" || op == "-" || op == "*" || op == "/" || op == "%" || op == "**" then
    match toNumOpt a, toNumOpt b with
    | some x, some y =>
        (match pyArith op x y with
          | some r => OpOut.ok (Value.num r)
          | none => OpOut.zeroDiv)
    | _, _ =>
      if op == "+" then
        match a, b with
        | Value.str s, Value.str t => OpOut.ok (Value.str (s ++ t))
        | _, _ => OpOut.typeErr
      else OpOut.typeErr
  else OpOut.unknownOp

/-- `op_map` application as done by `DPExpressionEvaluator.evaluate_with_dp`
(no string special-casing; exceptions propagate with Python messages). -/
def binApplyDP (op : String) (a b : Value) : Except String Value :=
  if opInMap op then
    match opResult op a b with
    | OpOut.ok v => Except.ok v
    | OpOut.typeErr => Except.error ("unsupported operand type(s) for " ++ op)
    | OpOut.zeroDiv => Except.error ("division by zero")
    | OpOut.unknownOp => Except.error ("Unknown operator: " ++ op)
  else Except.error ("Unknown operator: " ++ op)

/-- `op_map` application as done by `_evaluate_recursively`: `+` with a
string on either side concatenates the `str(...)` forms; `TypeError` and
`ZeroDivisionError` are re-raised with the interpreter's own messages. -/
def binApplyPlain (op : String) (a b : Value) : Except String Value :=
  if opInMap op then
    if op == "+" && (isStr a || isStr b) then
      Except.ok (Value.str (pyStr a ++ pyStr b))
    else
      match opResult op a b with
      | OpOut.ok v => Except.ok v
      | OpOut.typeErr =>
          Except.error ("Unsupported operand types for " ++ op ++ ": " ++
            pyTypeName a ++ " and " ++ pyTypeName b)
      | OpOut.zeroDiv => Except.error ("Division by zero.")
      | OpOut.unknownOp => Except.error ("Unknown operator: " ++ op)
  else Except.error ("Unknown operator: " ++ op)

/-- The interpreter's variable environment: a Python dict as an
insertion-ordered association list with unique keys. -/
abbrev VarMap : Type := List (String × Value)

/-- Dict membership / read: first (unique) matching key. -/
def lookupVar (vars : VarMap) (n : String) : Option Value :=
  match vars with
  | [] => none
  | p :: rest => if p.1 = n then some p.2 else lookupVar rest n

/-- Python dict assignment: overwrite in place, else append. -/
def dictSet (vars : VarMap) (n : String) (v : Value) : VarMap :=
  match vars with
  | [] => [(n, v)]
  | p :: rest => if p.1 = n then (n, v) :: rest else p :: dictSet rest n v

/-- `NyundaInterpreter._evaluate_recursively`: the plain, non-memoized
recursive expression evaluator. -/
def plainEval : AST → VarMap → Except String Value
  | AST.num v, _ => Except.ok (Value.num v)
  | AST.str s, _ => Except.ok (Value.str s)
  | AST.var n, vars =>
      match lookupVar vars n with
      | some v => Except.ok v
      | none => Except.error ("Variable " ++ n ++ " is not defined.")
  | AST.binOp l op r, vars =>
      match plainEval l vars with
      | Except.error m => Except.error m
      | Except.ok lv =>
        match plainEval r vars with
        | Except.error m => Except.error m
        | Except.ok rv => binApplyPlain op lv rv
  | other, _ =>
      Except.error ("Cannot evaluate non-expression node type: " ++ className other)

/-- `DPExpressionEvaluator._get_node_repr`: structural signature of a node
(string value hashing is modelled by the value itself; statement nodes
collapse to their class name exactly as in the source). -/
inductive ReprT : Type where
  | rnum   : ℚ → ReprT
  | rstr   : String → ReprT
  | rvar   : String → ReprT
  | rbin   : ReprT → String → ReprT → ReprT
  | rother : String → ReprT
deriving DecidableEq, Repr

/-- The memoization key of `get_expression_key`: node signature plus the
`frozenset(variables.items())` snapshot (modelled canonically as the
name-sorted association list, since dict keys are unique). -/
def getNodeRepr : AST → ReprT
  | AST.num v => ReprT.rnum v
  | AST.str s => ReprT.rstr s
  | AST.var n => ReprT.rvar n
  | AST.binOp l op r => ReprT.rbin (getNodeRepr l) op (getNodeRepr r)
  | other => ReprT.rother (className other)

/-- Insert a binding into a name-sorted list (for the snapshot). -/
def insertByName (p : String × Value) : List (String × Value) → List (String × Value)
  | [] => [p]
  | q :: rest => if p.1 ≤ q.1 then p :: q :: rest else q :: insertByName p rest

/-- Canonical form of `frozenset(variables.items())`: the bindings sorted
by name (equal as sets of pairs iff equal as sorted lists, keys unique). -/
def snapVars (vars : VarMap) : List (String × Value) :=
  vars.foldr insertByName []

/-- A full memo key. -/
def exprKey (node : AST) (vars : VarMap) : ReprT × List (String × Value) :=
  (getNodeRepr node, snapVars vars)

/-- The mutable fields of one `DPExpressionEvaluator` instance. -/
structure DPState : Type where
  memo : List ((ReprT × List (String × Value)) × Value)
  subproblemCount : ℕ
  cacheHits : ℕ
deriving DecidableEq, Repr

/-- Fresh evaluator (`DPExpressionEvaluator.__init__`). -/
def initDP : DPState := ⟨[], 0, 0⟩

/-- `key in memo_table` / `memo_table[key]` lookup. -/
def memoLookup (k : ReprT × List (String × Value)) :
    List ((ReprT × List (String × Value)) × Value) → Option Value
  | [] => none
  | e :: rest => if e.1 = k then some e.2 else memoLookup k rest

/-- `evaluate_with_dp`: memoized evaluation.  The key is computed first;
a hit bumps `cache_hits` and returns the stored value; a miss bumps
`subproblem_count`, computes (recursing through the same memoized path),
stores on success (exceptions propagate before the store) and returns. -/
def evalDP : AST → VarMap → DPState → DPState × Except String Value
  | node, vars, st =>
    let key := exprKey node vars
    match memoLookup key st.memo with
    | some v => ({ st with cacheHits := st.cacheHits + 1 }, Except.ok v)
    | none =>
      let st1 := { st with subproblemCount := st.subproblemCount + 1 }
      match node with
      | AST.num v =>
          ({ st1 with memo := (key, Value.num v) :: st1.memo }, Except.ok (Value.num v))
      | AST.str s =>
          ({ st1 with memo := (key, Value.str s) :: st1.memo }, Except.ok (Value.str s))
      | AST.var n =>
          (match lookupVar vars n with
            | some v =>
                ({ st1 with memo := (key, v) :: st1.memo }, Except.ok v)
            | none => (st1, Except.error ("Variable " ++ n ++ " is not defined")))
      | AST.binOp l op r =>
          (match evalDP l vars st1 with
            | (st2, Except.error m) => (st2, Except.error m)
            | (st2, Except.ok lv) =>
              match evalDP r vars st2 with
              | (st3, Except.error m) => (st3, Except.error m)
              | (st3, Except.ok rv) =>
                match binApplyDP op lv rv with
                | Except.ok v =>
                    ({ st3 with memo := (key, v) :: st3.memo }, Except.ok v)
                | Except.error m => (st3, Except.error m))
      | other =>
          (st1, Except.error ("Cannot evaluate node type: " ++ className other))

/-- Interpreter state: the flat variable environment, the DP evaluator
instance, the `use_dp` flag, and the lines printed so far. -/
structure InterpSt : Type where
  vars : VarMap
  dp : DPState
  useDp : Bool
  output : List String

/-- Fresh interpreter (`NyundaInterpreter.__init__`). -/
def initInterp (useDp : Bool) : InterpSt := ⟨[], initDP, useDp, []⟩

/-- `evaluate_expression`: DP evaluator when enabled, else the plain one. -/
def evaluateExpression (e : AST) (st : InterpSt) : InterpSt × Except String Value :=
  if st.useDp then
    match evalDP e st.vars st.dp with
    | (dp', r) => ({ st with dp := dp' }, r)
  else (st, plainEval e st.vars)

/-- Truthiness used by `if`/`while`: zero and the empty string are falsy. -/
def pyTruthy : Value → Bool
  | Value.num q => !(q == 0)
  | Value.str s => !(s == "")
  | Value.bool b => b

/-- Result of executing a statement: a value-or-None, a raised exception
(with its message), or exhaustion of the step budget (model artifact for
the unbounded `while`). -/
inductive ExecRes : Type where
  | ok      : Option Value → ExecRes
  | err     : String → ExecRes
  | fuelOut : ExecRes
deriving Repr

/-- A pending unit of execution: one statement, a statement sequence with
the running `result`, or a `while` loop with the running `result`.  This
lets the mutually recursive `execute`/statement-loop/`while`-loop trio of
the source be one fuel-structural function (so that concrete runs compute
definitionally); each recursive call consumes one fuel unit. -/
inductive ExecJob : Type where
  | one  : AST → ExecJob
  | seq  : List AST → Option Value → ExecJob
  | loop : AST → List AST → Option Value → ExecJob

/-- `NyundaInterpreter.execute` (dispatch on the node kind), together with
the `for stmt in ...: result = self.execute(stmt)` loops and
`execute_WhileNode`. -/
def execStep : ℕ → ExecJob → InterpSt → InterpSt × ExecRes
  | 0, _, st => (st, ExecRes.fuelOut)
  | Nat.succ fuel, ExecJob.one node, st =>
    (match node with
    | AST.num v =>
        (match evaluateExpression (AST.num v) st with
          | (st1, Except.ok v1) => (st1, ExecRes.ok (some v1))
          | (st1, Except.error m) => (st1, ExecRes.err m))
    | AST.str s =>
        (match evaluateExpression (AST.str s) st with
          | (st1, Except.ok v1) => (st1, ExecRes.ok (some v1))
          | (st1, Except.error m) => (st1, ExecRes.err m))
    | AST.var n =>
        (match evaluateExpression (AST.var n) st with
          | (st1, Except.ok v1) => (st1, ExecRes.ok (some v1))
          | (st1, Except.error m) => (st1, ExecRes.err m))
    | AST.binOp l op r =>
        (match evaluateExpression (AST.binOp l op r) st with
          | (st1, Except.ok v1) => (st1, ExecRes.ok (some v1))
          | (st1, Except.error m) => (st1, ExecRes.err m))
    | AST.assign n value =>
        (match evaluateExpression value st with
          | (st1, Except.ok v) =>
              ({ st1 with vars := dictSet st1.vars n v },
                ExecRes.ok (some v))
          | (st1, Except.error m) => (st1, ExecRes.err m))
    | AST.ifN c thenB elseB =>
        (match evaluateExpression c st with
          | (st1, Except.error m) => (st1, ExecRes.err m)
          | (st1, Except.ok cv) =>
            if pyTruthy cv then execStep fuel (ExecJob.seq thenB none) st1
            else
              match elseB with
              | some es => execStep fuel (ExecJob.seq es none) st1
              | none => (st1, ExecRes.ok none))
    | AST.whileN c body => execStep fuel (ExecJob.loop c body none) st
    | AST.printN e =>
        (match evaluateExpression e st with
          | (st1, Except.ok v) =>
              ({ st1 with output := st1.output ++ [pyStr v] }, ExecRes.ok (some v))
          | (st1, Except.error m) => (st1, ExecRes.err m))
    | AST.block stmts => execStep fuel (ExecJob.seq stmts none) st)
  | Nat.succ _, ExecJob.seq [] acc, st => (st, ExecRes.ok acc)
  | Nat.succ fuel, ExecJob.seq (s :: rest) acc, st =>
    (match execStep fuel (ExecJob.one s) st with
      | (st1, ExecRes.ok v) => execStep fuel (ExecJob.seq rest v) st1
      | other => other)
  | Nat.succ fuel, ExecJob.loop c body acc, st =>
    (match evaluateExpression c st with
      | (st1, Except.error m) => (st1, ExecRes.err m)
      | (st1, Except.ok cv) =>
        if pyTruthy cv then
          match execStep fuel (ExecJob.seq body acc) st1 with
          | (st2, ExecRes.ok acc1) => execStep fuel (ExecJob.loop c body acc1) st2
          | other => other
        else (st1, ExecRes.ok acc))

/-- Executing one statement node. -/
def execute (fuel : ℕ) (node : AST) (st : InterpSt) : InterpSt × ExecRes :=
  execStep fuel (ExecJob.one node) st

/-- `NyundaInterpreter.interpret`: run, catching any exception at this one
boundary: print a runtime-error line and return `None`. -/
def interpret (fuel : ℕ) (ast : AST) (st : InterpSt) : InterpSt × Option Value :=
  match execute fuel ast st with
  | (st1, ExecRes.ok v) => (st1, v)
  | (st1, ExecRes.err m) =>
      ({ st1 with output := st1.output ++ ["Runtime Error: " ++ m] }, none)
  | (st1, ExecRes.fuelOut) => (st1, none)

/-- `_try_constant_folding`: fold `NumberNode op NumberNode` for the five
arithmetic operators of its `op_map`; `ZeroDivisionError` means "skip". -/
def tryConstantFolding : AST → Option (AST × String)
  | AST.binOp (AST.num a) op (AST.num b) =>
      if op = "+" || op = "-" || op = "*" || op = "/" || op = "**" then
        match pyArith op a b with
        | some r => some (AST.num r, "constant_folding")
        | none => none
      else none
  | _ => none

/-- `_try_algebraic_simplification`: the identity rules, in source order. -/
def tryAlgebraicSimplification : AST → Option (AST × String)
  | AST.binOp l op r =>
      if op = "+" then
        match r with
        | AST.num q =>
            if q = 0 then some (l, "add_zero_elimination")
            else
              match l with
              | AST.num p => if p = 0 then some (r, "add_zero_elimination") else none
              | _ => none
        | _ =>
          match l with
          | AST.num p => if p = 0 then some (r, "add_zero_elimination") else none
          | _ => none
      else if op = "*" then
        match r with
        | AST.num q =>
            if q = 1 then some (l, "mul_one_elimination")
            else
              match l with
              | AST.num p =>
                  if p = 1 then some (r, "mul_one_elimination")
                  else if q = 0 then some (AST.num 0, "mul_zero_elimination")
                  else if p = 0 then some (AST.num 0, "mul_zero_elimination")
                  else none
              | _ =>
                  if q = 0 then some (AST.num 0, "mul_zero_elimination") else none
        | _ =>
          match l with
          | AST.num p =>
              if p = 1 then some (r, "mul_one_elimination")
              else if p = 0 then some (AST.num 0, "mul_zero_elimination")
              else none
          | _ => none
      else none
  | _ => none

/-- `_try_strength_reduction`: `x ** 2 → x * x` and `x * 2 → x + x`
(duplicating the left subtree). -/
def tryStrengthReduction : AST → Option (AST × String)
  | AST.binOp l op r =>
      if op = "**" then
        match r with
        | AST.num q => if q = 2 then some (AST.binOp l "*" l, "power_to_multiply") else none
        | _ => none
      else if op = "*" then
        match r with
        | AST.num q => if q = 2 then some (AST.binOp l "+" l, "multiply_to_add") else none
        | _ => none
      else none
  | _ => none

/-- `_try_commutative_reorder`: swap operands of `+ * == !=` when the right
operand is cheaper. -/
def tryCommutativeReorder : AST → Option (AST × String)
  | AST.binOp l op r =>
      if op = "+" || op = "*" || op = "==" || op = "!=" then
        if cost r < cost l then some (AST.binOp r op l, "commutative_reorder")
        else none
      else none
  | _ => none

/-- `_apply_transform_recursively`: try the node itself, then the left
subtree of a `BinaryOpNode`, then its right subtree; other composite node
kinds are not descended into (the source leaves them unhandled). -/
def applyTransformRecursively (f : AST → Option (AST × String)) :
    AST → Option (AST × String)
  | AST.binOp l op r =>
      (match f (AST.binOp l op r) with
        | some p => some p
        | none =>
          match applyTransformRecursively f l with
          | some (nl, nm) => some (AST.binOp nl op r, nm)
          | none =>
            match applyTransformRecursively f r with
            | some (nr, nm) => some (AST.binOp l op nr, nm)
            | none => none)
  | node => f node

/-- `OptimizationState` (its `__lt__` compares `cost` only). -/
structure OptState : Type where
  ast : AST
  cost : ℕ
  depth : ℕ
  transformations : List String
deriving Repr

/-- `OptimizationState.__lt__`. -/
def stateLt (s t : OptState) : Bool :=
  s.cost < t.cost

/-- The transformation list of `_generate_successors`, in source order. -/
def transformFuncs : List (AST → Option (AST × String)) :=
  [tryConstantFolding, tryAlgebraicSimplification,
   tryStrengthReduction, tryCommutativeReorder]

/-- One successor candidate: non-empty transform name and a strict cost
improvement are required for admission. -/
def succOf (s : OptState) (f : AST → Option (AST × String)) : Option OptState :=
  match applyTransformRecursively f s.ast with
  | some (na, nm) =>
      if nm ≠ "" ∧ cost na < s.cost then
        some ⟨na, cost na, s.depth + 1, s.transformations ++ [nm]⟩
      else none
  | none => none

/-- `_generate_successors`. -/
def genSuccessors (s : OptState) : List OptState :=
  transformFuncs.filterMap (succOf s)

/-- Remove and return the first minimal-cost state of the queue (the
`heapq.heappop` contract under `OptimizationState.__lt__`). -/
def popMinQ : List OptState → Option (OptState × List OptState)
  | [] => none
  | s :: rest =>
    match popMinQ rest with
    | none => some (s, [])
    | some (m, rest') =>
        if s.cost ≤ m.cost then some (s, rest) else some (m, s :: rest')

/-- How the `optimize` search loop stopped. -/
inductive ExitReason : Type where
  | queueEmpty : ExitReason
  | queueCap   : ExitReason
  | fuelOut    : ExitReason
deriving DecidableEq, Repr

/-- The loop-carried data of `GreedyBestFirstOptimizer.optimize`. -/
structure SearchCtx : Type where
  queue : List OptState
  visited : List AST
  best : OptState

/-- The `while priority_queue and len(priority_queue) < 100` search loop:
pop the minimum, skip visited signatures, update the best state, expand
below the depth bound.  `fuelOut` is a model artifact; `optimize` below is
run with enough fuel that it never occurs (see the claim-C6 theorem). -/
def optLoop (maxDepth : ℕ) : ℕ → SearchCtx → SearchCtx × ExitReason
  | 0, c => (c, ExitReason.fuelOut)
  | Nat.succ fuel, c =>
    match popMinQ c.queue with
    | none => (c, ExitReason.queueEmpty)
    | some (cur, rest) =>
      if 100 ≤ c.queue.length then (c, ExitReason.queueCap)
      else if c.visited.any (fun a => astBeq a cur.ast) then
        optLoop maxDepth fuel { c with queue := rest }
      else
        let visited' := cur.ast :: c.visited
        let best' := if cur.cost < c.best.cost then cur else c.best
        if maxDepth ≤ cur.depth then
          optLoop maxDepth fuel ⟨rest, visited', best'⟩
        else
          optLoop maxDepth fuel ⟨rest ++ genSuccessors cur, visited', best'⟩

/-- `GreedyBestFirstOptimizer.optimize` with explicit depth bound and step
budget, also reporting how the loop exited. -/
def optimizeWith (maxDepth fuel : ℕ) (ast : AST) :
    (AST × List String) × ExitReason :=
  let init : OptState := ⟨ast, cost ast, 0, []⟩
  match optLoop maxDepth fuel ⟨[init], [], init⟩ with
  | (c, ex) => ((c.best.ast, c.best.transformations), ex)

/-- `optimize` at the shipped configuration: `max_depth = 5`; the step
budget 1025 provably exceeds the loop's iteration count on every input. -/
def optimize (ast : AST) : (AST × List String) × ExitReason :=
  optimizeWith 5 1025 ast

/-- Project an evaluator outcome to its value (errors carry messages whose
text differs between the two evaluators; the claims compare values). -/
def resOpt : Except String Value → Option Value
  | Except.ok v => some v
  | Except.error _ => none

/-- Purely numeric expression: number literals, variables and the six
arithmetic operators only (no string literals, no comparisons, no
statement nodes). -/
def numericOnly : AST → Bool
  | AST.num _ => true
  | AST.var _ => true
  | AST.binOp l op r =>
      (op == "+" || op == "-" || op == "*" || op == "/" || op == "%" || op == "**") &&
        numericOnly l && numericOnly r
  | _ => false

/-- Every binding in the environment holds a number. -/
def varsNumericB (vars : VarMap) : Bool :=
  vars.all (fun p =>
    match p.2 with
    | Value.num _ => true
    | _ => false)

/-- No binding in the environment holds a string. -/
def varsNoStrB (vars : VarMap) : Bool :=
  vars.all (fun p => !(isStr p.2))

/-- Expression containing no string literal. -/
def noStringNode : AST → Bool
  | AST.num _ => true
  | AST.var _ => true
  | AST.binOp l _ r => noStringNode l && noStringNode r
  | AST.str _ => false
  | _ => false

/-- Pure expression subset handled by the evaluators: number and string
literals, variables and binary operations over them. -/
def exprPure : AST → Bool
  | AST.num _ => true
  | AST.str _ => true
  | AST.var _ => true
  | AST.binOp l _ r => exprPure l && exprPure r
  | _ => false

/-- Signatures of pure expressions (no class-name fallback inside). -/
def pureRepr : ReprT → Bool
  | ReprT.rnum _ => true
  | ReprT.rstr _ => true
  | ReprT.rvar _ => true
  | ReprT.rbin l _ r => pureRepr l && pureRepr r
  | ReprT.rother _ => false

/-- `e'` is the result of one single-site optimizer rewrite of `e`. -/
def IsRewrite (e e' : AST) : Prop :=
  ∃ f ∈ transformFuncs, ∃ nm, applyTransformRecursively f e = some (e', nm)

mutual

/-- Whether an AST contains an `AssignmentNode` anywhere. -/
def containsAssign : AST → Bool
  | AST.num _ => false
  | AST.str _ => false
  | AST.var _ => false
  | AST.binOp l _ r => containsAssign l || containsAssign r
  | AST.assign _ _ => true
  | AST.ifN c t e =>
      containsAssign c || containsAssignList t ||
        (match e with
          | some es => containsAssignList es
          | none => false)
  | AST.whileN c b => containsAssign c || containsAssignList b
  | AST.printN e => containsAssign e
  | AST.block stmts => containsAssignList stmts

/-- `containsAssign` over statement lists. -/
def containsAssignList : List AST → Bool
  | [] => false
  | s :: rest => containsAssign s || containsAssignList rest

end

/-- Number of queued states at a given search depth. -/
def countDepth (q : List OptState) (d : ℕ) : ℕ :=
  (q.filter (fun s => s.depth = d)).length

/-- Queue invariant of the search loop: at most three states per depth,
deeper states strictly cheaper than shallower ones, depths within the
bound, and each state's stored cost is its AST's cost. -/
def QueueInv (maxDepth : ℕ) (q : List OptState) : Prop :=
  (∀ d, countDepth q d ≤ 3) ∧
  (∀ s ∈ q, ∀ t ∈ q, s.depth < t.depth → t.cost < s.cost) ∧
  (∀ s ∈ q, s.depth ≤ maxDepth) ∧
  (∀ s ∈ q, s.cost = cost s.ast)

/-- Termination potential of the search queue. -/
def phiQ (q : List OptState) : ℕ :=
  (q.map (fun s => 4 ^ (5 - s.depth))).sum

/-- Cache consistency: every memo entry whose snapshot matches the current
variable mapping stores the plain-evaluator value of the (string-free)
expression its signature denotes. -/
def CacheOK (memo : List ((ReprT × List (String × Value)) × Value))
    (vars : VarMap) : Prop :=
  ∀ k v, memoLookup k memo = some v → k.2 = snapVars vars →
    ∃ e, noStringNode e = true ∧ getNodeRepr e = k.1 ∧
      plainEval e vars = Except.ok v

/-- The keys of a Python dict are unique. -/
def KeysNodup (vars : VarMap) : Prop :=
  (vars.map Prod.fst).Nodup

/-- The program of example scenario 2: `x = 0; y = x + 0`. -/
def c3prog : AST :=
  AST.block [AST.assign "x" (AST.num 0),
             AST.assign "y" (AST.binOp (AST.var "x") "+" (AST.num 0))]

/-! ### Queue lemmas (heapq contract under `OptimizationState.__lt__`) -/

theorem popMinQ_none_iff (q : List OptState) : popMinQ q = none ↔ q = [] := by
  cases q with
  | nil => simp [popMinQ]
  | cons a tail =>
    simp only [popMinQ]
    cases h : popMinQ tail with
    | none => simp
    | some p =>
      cases p with
      | mk m rest' => by_cases hc : a.cost ≤ m.cost <;> simp [hc]

theorem popMinQ_min (q : List OptState) (s : OptState) (rest : List OptState)
    (h : popMinQ q = some (s, rest)) : ∀ x ∈ q, s.cost ≤ x.cost := by
  induction q generalizing s rest with
  | nil => simp [popMinQ] at h
  | cons a tail ih =>
    simp only [popMinQ] at h
    cases htail : popMinQ tail with
    | none =>
      have : tail = [] := (popMinQ_none_iff tail).mp htail
      subst this
      simp [popMinQ] at h
      intro x hx
      simp at hx
      simp [hx, h.1.symm]
    | some p =>
      cases p with
      | mk m rest' =>
        rw [htail] at h
        by_cases hc : a.cost ≤ m.cost
        · simp [hc] at h
          have hsa : s.cost = a.cost := by rw [← h.1]
          intro x hx
          rcases List.mem_cons.mp hx with hx | hx
          · subst hx
            omega
          · have hmx := ih m rest' htail x hx
            omega
        · simp [hc] at h
          have hsm : s.cost = m.cost := by rw [← h.1]
          intro x hx
          rcases List.mem_cons.mp hx with hx | hx
          · subst hx
            omega
          · have hmx := ih m rest' htail x hx
            omega

theorem popMinQ_perm (q : List OptState) (s : OptState) (rest : List OptState)
    (h : popMinQ q = some (s, rest)) : q.Perm (s :: rest) := by
  induction q generalizing s rest with
  | nil => simp [popMinQ] at h
  | cons a tail ih =>
    simp only [popMinQ] at h
    cases htail : popMinQ tail with
    | none =>
      have : tail = [] := (popMinQ_none_iff tail).mp htail
      subst this
      simp [popMinQ] at h
      rw [h.1, h.2]
    | some p =>
      cases p with
      | mk m rest' =>
        rw [htail] at h
        by_cases hc : a.cost ≤ m.cost
        · simp [hc] at h
          rw [← h.1, ← h.2]
        · simp [hc] at h
          rw [← h.1, ← h.2]
          exact (List.Perm.cons a (ih m rest' htail)).trans (List.Perm.swap m a rest')

/-- Claim C7 (corrected by `claim7_counterexample`): the priority queue is
ordered by `cost` alone — `OptimizationState.__lt__` is exactly the strict
cost comparison, and a popped state always has minimal cost among the
queued states; equal-cost ties are not broken by depth. -/
theorem claim7_queue_order_cost_only :
    (∀ s t : OptState, stateLt s t = decide (s.cost < t.cost)) ∧
    (∀ q s rest, popMinQ q = some (s, rest) → ∀ x ∈ q, s.cost ≤ x.cost) :=
  ⟨fun _ _ => rfl, popMinQ_min⟩

/-- Witness for `claim7_queue_order_cost_only` at concrete states. -/
theorem claim7_queue_order_cost_only_witness :
    stateLt ⟨AST.num 0, 1, 0, []⟩ ⟨AST.num 0, 2, 0, []⟩ = decide ((1 : ℕ) < 2) ∧
    ∀ x ∈ [(⟨AST.num 0, 5, 3, []⟩ : OptState), ⟨AST.num 0, 7, 1, []⟩],
      (⟨AST.num 0, 5, 3, []⟩ : OptState).cost ≤ x.cost :=
  ⟨claim7_queue_order_cost_only.1 _ _,
   claim7_queue_order_cost_only.2
     [⟨AST.num 0, 5, 3, []⟩, ⟨AST.num 0, 7, 1, []⟩] _ _ rfl⟩

/-- Counterexample to claim C7 as stated: two equal-cost states; the one
with smaller depth is neither below the other in the `__lt__` order nor
popped first — the deeper state (pushed earlier) is popped first. -/
theorem claim7_counterexample :
    stateLt ⟨AST.num 0, 5, 1, []⟩ ⟨AST.num 0, 5, 3, []⟩ = false ∧
    popMinQ [⟨AST.num 0, 5, 3, []⟩, ⟨AST.num 0, 5, 1, []⟩] =
      some (⟨AST.num 0, 5, 3, []⟩, [⟨AST.num 0, 5, 1, []⟩]) :=
  ⟨rfl, rfl⟩

/-- Claim C8 (confirmed): constant folding of a division by the literal
zero produces no rewrite and no error — the rule yields no replacement. -/
theorem claim8_fold_division_by_zero_skipped (a : ℚ) :
    tryConstantFolding (AST.binOp (AST.num a) "/" (AST.num 0)) = none := by
  simp [tryConstantFolding, pyArith, pyDiv]

/-- Counterexample to claim C3 as stated: the optimizer returns the
program `x = 0; y = x + 0` unchanged (with an empty transformation list);
in particular it does not rewrite the second assignment's value to
`Variable x`, because `_apply_transform_recursively` descends only into
`BinaryOpNode` children and never into a `Block` or an `Assignment`. -/
theorem claim3_counterexample :
    (optimize c3prog).1 = (c3prog, []) ∧
    (optimize c3prog).1.1 ≠
      AST.block [AST.assign "x" (AST.num 0), AST.assign "y" (AST.var "x")] := by
  refine ⟨rfl, ?_⟩
  intro h
  rw [show (optimize c3prog).1.1 = c3prog from rfl] at h
  simp [c3prog] at h

/-- Claim C3 (corrected): for the program `x = 0; y = x + 0` the optimizer
returns the AST unchanged with no transformations applied (rewrites are
never found under a `Block` root), and interpreting the optimized (hence
identical) program binds `y` to `0`. -/
theorem claim3_program_unchanged_y_zero :
    (optimize c3prog).1 = (c3prog, []) ∧
    lookupVar (interpret 10 (optimize c3prog).1.1 (initInterp true)).1.vars "y" =
      some (Value.num 0) :=
  ⟨rfl, by with_unfolding_all rfl⟩

/-- Claim C9 (confirmed): whenever execution of an AST raises a fault,
`interpret` catches it at the top level, appends a runtime-error line to
the output, and returns the no-result sentinel instead of re-raising. -/
theorem claim9_interpret_error_boundary (fuel : ℕ) (ast : AST) (st st1 : InterpSt)
    (m : String) (h : execute fuel ast st = (st1, ExecRes.err m)) :
    interpret fuel ast st =
      ({ st1 with output := st1.output ++ ["Runtime Error: " ++ m] }, none) := by
  simp [interpret, h]

/-- Witness for `claim9_interpret_error_boundary`: printing an undefined
variable raises; `interpret` reports it and returns no result. -/
theorem claim9_interpret_error_boundary_witness :
    interpret 5 (AST.printN (AST.var "nope")) (initInterp true) =
      (⟨[], ⟨[], 1, 0⟩, true, ["Runtime Error: Variable nope is not defined"]⟩, none) :=
  claim9_interpret_error_boundary 5 (AST.printN (AST.var "nope")) (initInterp true)
    ⟨[], ⟨[], 1, 0⟩, true, []⟩ "Variable nope is not defined" rfl

/-! ### Claim C1: single-rewrite soundness for the plain evaluator -/

theorem lookupVar_mem (vars : VarMap) (n : String) (v : Value)
    (h : lookupVar vars n = some v) : (n, v) ∈ vars := by
  induction vars with
  | nil => simp [lookupVar] at h
  | cons p rest ih =>
    simp only [lookupVar] at h
    by_cases hp : p.1 = n
    · simp [hp] at h
      have hpv : (n, v) = p := by rw [← hp, ← h]
      rw [hpv]
      exact List.mem_cons_self p rest
    · simp [hp] at h
      exact List.mem_cons_of_mem p (ih h)

theorem varsNumericB_lookup (vars : VarMap) (n : String) (v : Value)
    (hv : varsNumericB vars = true) (h : lookupVar vars n = some v) :
    ∃ q, v = Value.num q := by
  have hm := lookupVar_mem vars n v h
  have := List.all_eq_true.mp hv _ hm
  cases v with
  | num q => exact ⟨q, rfl⟩
  | str s => simp at this
  | bool b => simp at this

theorem binApplyPlain_arith (op : String) (x y : ℚ)
    (h : op = "+" ∨ op = "-" ∨ op = "*" ∨ op = "/" ∨ op = "%" ∨ op = "**") :
    binApplyPlain op (Value.num x) (Value.num y) =
      match pyArith op x y with
      | some r => Except.ok (Value.num r)
      | none => Except.error "Division by zero." := by
  rcases h with rfl | rfl | rfl | rfl | rfl | rfl <;>
    (cases hA : pyArith _ x y <;>
      · unfold binApplyPlain opResult
        simp only [toNumOpt]
        rw [hA]
        rfl)

theorem binApplyDP_arith (op : String) (x y : ℚ)
    (h : op = "+" ∨ op = "-" ∨ op = "*" ∨ op = "/" ∨ op = "%" ∨ op = "**") :
    binApplyDP op (Value.num x) (Value.num y) =
      match pyArith op x y with
      | some r => Except.ok (Value.num r)
      | none => Except.error "division by zero" := by
  rcases h with rfl | rfl | rfl | rfl | rfl | rfl <;>
    (cases hA : pyArith _ x y <;>
      · unfold binApplyDP opResult
        simp only [toNumOpt]
        rw [hA]
        rfl)

theorem numericOnly_binOp (l r : AST) (op : String)
    (h : numericOnly (AST.binOp l op r) = true) :
    (op = "+" ∨ op = "-" ∨ op = "*" ∨ op = "/" ∨ op = "%" ∨ op = "**") ∧
      numericOnly l = true ∧ numericOnly r = true := by
  simp [numericOnly] at h
  tauto

theorem plainEval_numeric : (e : AST) → (vars : VarMap) →
    numericOnly e = true → varsNumericB vars = true →
    ∀ v, plainEval e vars = Except.ok v → ∃ q, v = Value.num q
  | AST.num a, vars, he, hv => by
    intro v h
    simp [plainEval] at h
    exact ⟨a, h.symm⟩
  | AST.var n, vars, he, hv => by
    intro v h
    simp only [plainEval] at h
    cases hl : lookupVar vars n with
    | none => rw [hl] at h; simp at h
    | some w =>
      rw [hl] at h
      simp at h
      subst h
      exact varsNumericB_lookup vars n _ hv hl
  | AST.binOp l op r, vars, he, hv => by
    intro v h
    obtain ⟨hop, hl, hr⟩ := numericOnly_binOp l r op he
    simp only [plainEval] at h
    cases hL : plainEval l vars with
    | error m => rw [hL] at h; simp at h
    | ok lv =>
      rw [hL] at h
      cases hR : plainEval r vars with
      | error m => rw [hR] at h; simp at h
      | ok rv =>
        rw [hR] at h
        obtain ⟨p, rfl⟩ := plainEval_numeric l vars hl hv lv hL
        obtain ⟨q, rfl⟩ := plainEval_numeric r vars hr hv rv hR
        dsimp only at h
        rw [binApplyPlain_arith op p q hop] at h
        cases hA : pyArith op p q with
        | none => rw [hA] at h; simp at h
        | some s =>
          rw [hA] at h
          simp at h
          exact ⟨s, h.symm⟩
  | AST.str s, vars, he, hv => by simp [numericOnly] at he
  | AST.assign n val, vars, he, hv => by simp [numericOnly] at he
  | AST.ifN c t e, vars, he, hv => by simp [numericOnly] at he
  | AST.whileN c b, vars, he, hv => by simp [numericOnly] at he
  | AST.printN e, vars, he, hv => by simp [numericOnly] at he
  | AST.block stmts, vars, he, hv => by simp [numericOnly] at he

theorem pyPow_two (p : ℚ) : pyPow p 2 = some (p * p) := by
  have h1 : ((2 : ℚ)).den = 1 := rfl
  have h2 : ((2 : ℚ)).num = 2 := rfl
  simp [pyPow, h1, h2]
  norm_num [pow_two]

theorem fold_root_sound (e e' : AST) (nm : String) (vars : VarMap) (v : Value)
    (hf : tryConstantFolding e = some (e', nm))
    (hev : plainEval e vars = Except.ok v) : plainEval e' vars = Except.ok v := by
  cases e with
  | binOp l op r =>
    cases l with
    | num a =>
      cases r with
      | num b =>
        simp only [tryConstantFolding] at hf
        split at hf
        case isTrue hop =>
          have hop6 : op = "+" ∨ op = "-" ∨ op = "*" ∨ op = "/" ∨ op = "%" ∨ op = "**" := by
            simp at hop
            tauto
          cases hA : pyArith op a b with
          | none => rw [hA] at hf; simp at hf
          | some s =>
            rw [hA] at hf
            simp at hf
            obtain ⟨he', _⟩ := hf
            simp only [plainEval] at hev
            rw [binApplyPlain_arith op a b hop6, hA] at hev
            simp at hev
            rw [← he']
            simp [plainEval, ← hev]
        case isFalse hop => simp at hf
      | str s => simp [tryConstantFolding] at hf
      | var n => simp [tryConstantFolding] at hf
      | binOp l2 o2 r2 => simp [tryConstantFolding] at hf
      | assign n w => simp [tryConstantFolding] at hf
      | ifN c t e2 => simp [tryConstantFolding] at hf
      | whileN c b => simp [tryConstantFolding] at hf
      | printN e2 => simp [tryConstantFolding] at hf
      | block s => simp [tryConstantFolding] at hf
    | str s => simp [tryConstantFolding] at hf
    | var n => simp [tryConstantFolding] at hf
    | binOp l2 o2 r2 => simp [tryConstantFolding] at hf
    | assign n w => simp [tryConstantFolding] at hf
    | ifN c t e2 => simp [tryConstantFolding] at hf
    | whileN c b => simp [tryConstantFolding] at hf
    | printN e2 => simp [tryConstantFolding] at hf
    | block s => simp [tryConstantFolding] at hf
  | num a => simp [tryConstantFolding] at hf
  | str s => simp [tryConstantFolding] at hf
  | var n => simp [tryConstantFolding] at hf
  | assign n w => simp [tryConstantFolding] at hf
  | ifN c t e2 => simp [tryConstantFolding] at hf
  | whileN c b => simp [tryConstantFolding] at hf
  | printN e2 => simp [tryConstantFolding] at hf
  | block s => simp [tryConstantFolding] at hf

theorem alg_root_sound (e e' : AST) (nm : String) (vars : VarMap) (v : Value)
    (he : numericOnly e = true) (hv : varsNumericB vars = true)
    (hf : tryAlgebraicSimplification e = some (e', nm))
    (hev : plainEval e vars = Except.ok v) : plainEval e' vars = Except.ok v := by
  cases e with
  | num a => simp [tryAlgebraicSimplification] at hf
  | str s => simp [tryAlgebraicSimplification] at hf
  | var n => simp [tryAlgebraicSimplification] at hf
  | assign n w => simp [tryAlgebraicSimplification] at hf
  | ifN c t e2 => simp [tryAlgebraicSimplification] at hf
  | whileN c b => simp [tryAlgebraicSimplification] at hf
  | printN e2 => simp [tryAlgebraicSimplification] at hf
  | block s => simp [tryAlgebraicSimplification] at hf
  | binOp l op r =>
    obtain ⟨hop6, hnl, hnr⟩ := numericOnly_binOp l r op he
    simp only [plainEval] at hev
    cases hL : plainEval l vars with
    | error m => rw [hL] at hev; simp at hev
    | ok lv =>
      rw [hL] at hev
      cases hR : plainEval r vars with
      | error m => rw [hR] at hev; simp at hev
      | ok rv =>
        rw [hR] at hev
        obtain ⟨p, rfl⟩ := plainEval_numeric l vars hnl hv lv hL
        obtain ⟨q, rfl⟩ := plainEval_numeric r vars hnr hv rv hR
        dsimp only at hev
        rw [binApplyPlain_arith op p q hop6] at hev
        simp only [tryAlgebraicSimplification] at hf
        (try dsimp only at hf); split at hf
        case isTrue hplus =>
          subst hplus
          rw [show pyArith "+" p q = some (p + q) from rfl] at hev
          simp at hev
          cases r with
          | num q0 =>
            have hq0 : q0 = q := by
              have := hR
              simp [plainEval] at this
              exact this
            subst hq0
            (try dsimp only at hf); split at hf
            case isTrue hz =>
              subst hz
              simp at hf
              rw [← hf.1, hL, ← hev]
              simp
            case isFalse hz =>
              cases l with
              | num p0 =>
                have hp0 : p0 = p := by
                  have := hL
                  simp [plainEval] at this
                  exact this
                subst hp0
                (try dsimp only at hf); split at hf
                case isTrue hz2 =>
                  subst hz2
                  simp at hf
                  rw [← hf.1, hR, ← hev]
                  simp
                case isFalse hz2 => simp at hf
              | str s => simp at hf
              | var n => simp at hf
              | binOp a b c => simp at hf
              | assign a b => simp at hf
              | ifN a b c => simp at hf
              | whileN a b => simp at hf
              | printN a => simp at hf
              | block a => simp at hf
          | str s => simp [numericOnly] at hnr
          | var n =>
            cases l with
            | num p0 =>
              have hp0 : p0 = p := by
                have := hL
                simp [plainEval] at this
                exact this
              subst hp0
              (try dsimp only at hf); split at hf
              case isTrue hz2 =>
                subst hz2
                simp at hf
                rw [← hf.1, hR, ← hev]
                simp
              case isFalse hz2 => simp at hf
            | str s => simp at hf
            | var n2 => simp at hf
            | binOp a b c => simp at hf
            | assign a b => simp at hf
            | ifN a b c => simp at hf
            | whileN a b => simp at hf
            | printN a => simp at hf
            | block a => simp at hf
          | binOp a b c =>
            cases l with
            | num p0 =>
              have hp0 : p0 = p := by
                have := hL
                simp [plainEval] at this
                exact this
              subst hp0
              (try dsimp only at hf); split at hf
              case isTrue hz2 =>
                subst hz2
                simp at hf
                rw [← hf.1, hR, ← hev]
                simp
              case isFalse hz2 => simp at hf
            | str s => simp at hf
            | var n2 => simp at hf
            | binOp a2 b2 c2 => simp at hf
            | assign a2 b2 => simp at hf
            | ifN a2 b2 c2 => simp at hf
            | whileN a2 b2 => simp at hf
            | printN a2 => simp at hf
            | block a2 => simp at hf
          | assign a b => simp [numericOnly] at hnr
          | ifN a b c => simp [numericOnly] at hnr
          | whileN a b => simp [numericOnly] at hnr
          | printN a => simp [numericOnly] at hnr
          | block a => simp [numericOnly] at hnr
        case isFalse hplus =>
          (try dsimp only at hf); split at hf
          case isFalse hmul => simp at hf
          case isTrue hmul =>
            subst hmul
            rw [show pyArith "*" p q = some (p * q) from rfl] at hev
            simp at hev
            cases r with
            | num q0 =>
              have hq0 : q0 = q := by
                have := hR
                simp [plainEval] at this
                exact this
              subst hq0
              (try dsimp only at hf); split at hf
              case isTrue hone =>
                subst hone
                simp at hf
                rw [← hf.1, hL, ← hev]
                simp
              case isFalse hone =>
                cases l with
                | num p0 =>
                  have hp0 : p0 = p := by
                    have := hL
                    simp [plainEval] at this
                    exact this
                  subst hp0
                  (try dsimp only at hf); split at hf
                  case isTrue hone2 =>
                    subst hone2
                    simp at hf
                    rw [← hf.1, hR, ← hev]
                    simp
                  case isFalse hone2 =>
                    (try dsimp only at hf); split at hf
                    case isTrue hzr =>
                      subst hzr
                      simp at hf
                      rw [← hf.1, ← hev]
                      simp [plainEval]
                    case isFalse hzr =>
                      (try dsimp only at hf); split at hf
                      case isTrue hzl =>
                        subst hzl
                        simp at hf
                        rw [← hf.1, ← hev]
                        simp [plainEval]
                      case isFalse hzl => simp at hf
                | str s => simp [numericOnly] at hnl
                | var n =>
                  (try dsimp only at hf); split at hf
                  case isTrue hzr =>
                    subst hzr
                    simp at hf
                    rw [← hf.1, ← hev]
                    simp [plainEval]
                  case isFalse hzr => simp at hf
                | binOp a b c =>
                  (try dsimp only at hf); split at hf
                  case isTrue hzr =>
                    subst hzr
                    simp at hf
                    rw [← hf.1, ← hev]
                    simp [plainEval]
                  case isFalse hzr => simp at hf
                | assign a b => simp [numericOnly] at hnl
                | ifN a b c => simp [numericOnly] at hnl
                | whileN a b => simp [numericOnly] at hnl
                | printN a => simp [numericOnly] at hnl
                | block a => simp [numericOnly] at hnl
            | str s => simp [numericOnly] at hnr
            | var n =>
              cases l with
              | num p0 =>
                have hp0 : p0 = p := by
                  have := hL
                  simp [plainEval] at this
                  exact this
                subst hp0
                (try dsimp only at hf); split at hf
                case isTrue hone2 =>
                  subst hone2
                  simp at hf
                  rw [← hf.1, hR, ← hev]
                  simp
                case isFalse hone2 =>
                  (try dsimp only at hf); split at hf
                  case isTrue hzl =>
                    subst hzl
                    simp at hf
                    rw [← hf.1, ← hev]
                    simp [plainEval]
                  case isFalse hzl => simp at hf
              | str s => simp at hf
              | var n2 => simp at hf
              | binOp a b c => simp at hf
              | assign a b => simp at hf
              | ifN a b c => simp at hf
              | whileN a b => simp at hf
              | printN a => simp at hf
              | block a => simp at hf
            | binOp a b c =>
              cases l with
              | num p0 =>
                have hp0 : p0 = p := by
                  have := hL
                  simp [plainEval] at this
                  exact this
                subst hp0
                (try dsimp only at hf); split at hf
                case isTrue hone2 =>
                  subst hone2
                  simp at hf
                  rw [← hf.1, hR, ← hev]
                  simp
                case isFalse hone2 =>
                  (try dsimp only at hf); split at hf
                  case isTrue hzl =>
                    subst hzl
                    simp at hf
                    rw [← hf.1, ← hev]
                    simp [plainEval]
                  case isFalse hzl => simp at hf
              | str s => simp at hf
              | var n2 => simp at hf
              | binOp a2 b2 c2 => simp at hf
              | assign a2 b2 => simp at hf
              | ifN a2 b2 c2 => simp at hf
              | whileN a2 b2 => simp at hf
              | printN a2 => simp at hf
              | block a2 => simp at hf
            | assign a b => simp [numericOnly] at hnr
            | ifN a b c => simp [numericOnly] at hnr
            | whileN a b => simp [numericOnly] at hnr
            | printN a => simp [numericOnly] at hnr
            | block a => simp [numericOnly] at hnr

theorem strength_root_sound (e e' : AST) (nm : String) (vars : VarMap) (v : Value)
    (he : numericOnly e = true) (hv : varsNumericB vars = true)
    (hf : tryStrengthReduction e = some (e', nm))
    (hev : plainEval e vars = Except.ok v) : plainEval e' vars = Except.ok v := by
  cases e with
  | num a => simp [tryStrengthReduction] at hf
  | str s => simp [tryStrengthReduction] at hf
  | var n => simp [tryStrengthReduction] at hf
  | assign n w => simp [tryStrengthReduction] at hf
  | ifN c t e2 => simp [tryStrengthReduction] at hf
  | whileN c b => simp [tryStrengthReduction] at hf
  | printN e2 => simp [tryStrengthReduction] at hf
  | block s => simp [tryStrengthReduction] at hf
  | binOp l op r =>
    obtain ⟨hop6, hnl, hnr⟩ := numericOnly_binOp l r op he
    simp only [plainEval] at hev
    cases hL : plainEval l vars with
    | error m => rw [hL] at hev; simp at hev
    | ok lv =>
      rw [hL] at hev
      cases hR : plainEval r vars with
      | error m => rw [hR] at hev; simp at hev
      | ok rv =>
        rw [hR] at hev
        obtain ⟨p, rfl⟩ := plainEval_numeric l vars hnl hv lv hL
        obtain ⟨q, rfl⟩ := plainEval_numeric r vars hnr hv rv hR
        dsimp only at hev
        rw [binApplyPlain_arith op p q hop6] at hev
        simp only [tryStrengthReduction] at hf
        split at hf
        case isTrue hpow =>
          subst hpow
          rw [show pyArith "**" p q = pyPow p q from rfl] at hev
          cases r with
          | num q0 =>
            have hq0 : q0 = q := by
              have := hR
              simp [plainEval] at this
              exact this
            subst hq0
            (try dsimp only at hf); split at hf
            case isTrue htwo =>
              subst htwo
              simp at hf
              rw [pyPow_two] at hev
              simp at hev
              rw [← hf.1]
              simp only [plainEval]
              rw [hL]
              dsimp only
              rw [binApplyPlain_arith "*" p p (by tauto)]
              rw [show pyArith "*" p p = some (p * p) from rfl, ← hev]
            case isFalse htwo => simp at hf
          | str s => simp [numericOnly] at hnr
          | var n => (try dsimp only at hf); simp at hf
          | binOp a b c => (try dsimp only at hf); simp at hf
          | assign a b => simp [numericOnly] at hnr
          | ifN a b c => simp [numericOnly] at hnr
          | whileN a b => simp [numericOnly] at hnr
          | printN a => simp [numericOnly] at hnr
          | block a => simp [numericOnly] at hnr
        case isFalse hpow =>
          split at hf
          case isFalse hmul => simp at hf
          case isTrue hmul =>
            subst hmul
            rw [show pyArith "*" p q = some (p * q) from rfl] at hev
            simp at hev
            cases r with
            | num q0 =>
              have hq0 : q0 = q := by
                have := hR
                simp [plainEval] at this
                exact this
              subst hq0
              (try dsimp only at hf); split at hf
              case isTrue htwo =>
                subst htwo
                simp at hf
                rw [← hf.1]
                simp only [plainEval]
                rw [hL]
                dsimp only
                rw [binApplyPlain_arith "+" p p (by tauto)]
                rw [show pyArith "+" p p = some (p + p) from rfl, ← hev]
                norm_num
                ring
              case isFalse htwo => simp at hf
            | str s => simp [numericOnly] at hnr
            | var n => (try dsimp only at hf); simp at hf
            | binOp a b c => (try dsimp only at hf); simp at hf
            | assign a b => simp [numericOnly] at hnr
            | ifN a b c => simp [numericOnly] at hnr
            | whileN a b => simp [numericOnly] at hnr
            | printN a => simp [numericOnly] at hnr
            | block a => simp [numericOnly] at hnr

theorem comm_root_sound (e e' : AST) (nm : String) (vars : VarMap) (v : Value)
    (he : numericOnly e = true) (hv : varsNumericB vars = true)
    (hf : tryCommutativeReorder e = some (e', nm))
    (hev : plainEval e vars = Except.ok v) : plainEval e' vars = Except.ok v := by
  cases e with
  | num a => simp [tryCommutativeReorder] at hf
  | str s => simp [tryCommutativeReorder] at hf
  | var n => simp [tryCommutativeReorder] at hf
  | assign n w => simp [tryCommutativeReorder] at hf
  | ifN c t e2 => simp [tryCommutativeReorder] at hf
  | whileN c b => simp [tryCommutativeReorder] at hf
  | printN e2 => simp [tryCommutativeReorder] at hf
  | block s => simp [tryCommutativeReorder] at hf
  | binOp l op r =>
    obtain ⟨hop6, hnl, hnr⟩ := numericOnly_binOp l r op he
    simp only [plainEval] at hev
    cases hL : plainEval l vars with
    | error m => rw [hL] at hev; simp at hev
    | ok lv =>
      rw [hL] at hev
      cases hR : plainEval r vars with
      | error m => rw [hR] at hev; simp at hev
      | ok rv =>
        rw [hR] at hev
        obtain ⟨p, rfl⟩ := plainEval_numeric l vars hnl hv lv hL
        obtain ⟨q, rfl⟩ := plainEval_numeric r vars hnr hv rv hR
        dsimp only at hev
        rw [binApplyPlain_arith op p q hop6] at hev
        simp only [tryCommutativeReorder] at hf
        split at hf
        case isFalse h4 => simp at hf
        case isTrue h4 =>
          split at hf
          case isFalse hc => simp at hf
          case isTrue hc =>
            simp at hf
            obtain ⟨hfe, _⟩ := hf
            have hcomm : op = "+" ∨ op = "*" := by
              rcases hop6 with rfl | rfl | rfl | rfl | rfl | rfl <;> simp_all
            rw [← hfe]
            simp only [plainEval]
            rw [hL, hR]
            dsimp only
            rw [binApplyPlain_arith op q p (by tauto)]
            rcases hcomm with rfl | rfl
            · rw [show pyArith "+" q p = some (q + p) from rfl] at *
              rw [show pyArith "+" p q = some (p + q) from rfl] at hev
              simp at hev
              rw [← hev]
              norm_num
              ring
            · rw [show pyArith "*" q p = some (q * p) from rfl] at *
              rw [show pyArith "*" p q = some (p * q) from rfl] at hev
              simp at hev
              rw [← hev]
              norm_num
              ring

theorem applyRec_sound (f : AST → Option (AST × String))
    (hroot : ∀ e e' nm vars v, numericOnly e = true → varsNumericB vars = true →
      f e = some (e', nm) → plainEval e vars = Except.ok v →
      plainEval e' vars = Except.ok v) :
    (e : AST) → ∀ e' nm vars v, numericOnly e = true → varsNumericB vars = true →
      applyTransformRecursively f e = some (e', nm) → plainEval e vars = Except.ok v →
      plainEval e' vars = Except.ok v
  | AST.binOp l op r => by
    intro e' nm vars v he hv hrec hev
    obtain ⟨hop6, hnl, hnr⟩ := numericOnly_binOp l r op he
    simp only [applyTransformRecursively] at hrec
    cases hfroot : f (AST.binOp l op r) with
    | some pr =>
      rw [hfroot] at hrec
      simp at hrec
      exact hroot _ e' nm vars v he hv (by rw [hfroot, hrec]) hev
    | none =>
      rw [hfroot] at hrec
      dsimp only at hrec
      simp only [plainEval] at hev
      cases hL : plainEval l vars with
      | error m => rw [hL] at hev; simp at hev
      | ok lv =>
        rw [hL] at hev
        cases hR : plainEval r vars with
        | error m => rw [hR] at hev; simp at hev
        | ok rv =>
          rw [hR] at hev
          dsimp only at hev
          cases hl : applyTransformRecursively f l with
          | some pl =>
            obtain ⟨nl, nml⟩ := pl
            rw [hl] at hrec
            simp at hrec
            have hnl' := applyRec_sound f hroot l nl nml vars lv hnl hv hl hL
            rw [← hrec.1]
            simp only [plainEval]
            rw [hnl', hR]
            dsimp only
            exact hev
          | none =>
            rw [hl] at hrec
            dsimp only at hrec
            cases hr : applyTransformRecursively f r with
            | some pr2 =>
              obtain ⟨nr, nmr⟩ := pr2
              rw [hr] at hrec
              simp at hrec
              have hnr' := applyRec_sound f hroot r nr nmr vars rv hnr hv hr hR
              rw [← hrec.1]
              simp only [plainEval]
              rw [hL, hnr']
              dsimp only
              exact hev
            | none => rw [hr] at hrec; simp at hrec
  | AST.num a => by
    intro e' nm vars v he hv hrec hev
    simp only [applyTransformRecursively] at hrec
    exact hroot _ e' nm vars v he hv hrec hev
  | AST.str s => by
    intro e' nm vars v he hv hrec hev
    simp only [applyTransformRecursively] at hrec
    exact hroot _ e' nm vars v he hv hrec hev
  | AST.var n => by
    intro e' nm vars v he hv hrec hev
    simp only [applyTransformRecursively] at hrec
    exact hroot _ e' nm vars v he hv hrec hev
  | AST.assign n w => by
    intro e' nm vars v he hv hrec hev
    simp only [applyTransformRecursively] at hrec
    exact hroot _ e' nm vars v he hv hrec hev
  | AST.ifN c t e2 => by
    intro e' nm vars v he hv hrec hev
    simp only [applyTransformRecursively] at hrec
    exact hroot _ e' nm vars v he hv hrec hev
  | AST.whileN c b => by
    intro e' nm vars v he hv hrec hev
    simp only [applyTransformRecursively] at hrec
    exact hroot _ e' nm vars v he hv hrec hev
  | AST.printN e2 => by
    intro e' nm vars v he hv hrec hev
    simp only [applyTransformRecursively] at hrec
    exact hroot _ e' nm vars v he hv hrec hev
  | AST.block s => by
    intro e' nm vars v he hv hrec hev
    simp only [applyTransformRecursively] at hrec
    exact hroot _ e' nm vars v he hv hrec hev

/-- Claim C1 (corrected by `claim1_counterexample`): for purely numeric
expressions (no string literals, no comparison operators) under an
all-numeric variable binding, if the expression evaluates successfully
under the plain recursive evaluator, then any single optimizer rewrite
(constant folding, algebraic identity elimination, strength reduction, or
commutative reorder) yields an expression evaluating to the same value. -/
theorem claim1_rewrite_soundness_numeric (e e' : AST) (vars : VarMap) (v : Value)
    (he : numericOnly e = true) (hv : varsNumericB vars = true)
    (hrw : IsRewrite e e') (hev : plainEval e vars = Except.ok v) :
    plainEval e' vars = Except.ok v := by
  obtain ⟨f, hfmem, nm, hf⟩ := hrw
  simp [transformFuncs] at hfmem
  rcases hfmem with rfl | rfl | rfl | rfl
  · exact applyRec_sound _ (fun e e' nm vars v _ _ hf hev =>
      fold_root_sound e e' nm vars v hf hev) e e' nm vars v he hv hf hev
  · exact applyRec_sound _ alg_root_sound e e' nm vars v he hv hf hev
  · exact applyRec_sound _ strength_root_sound e e' nm vars v he hv hf hev
  · exact applyRec_sound _ comm_root_sound e e' nm vars v he hv hf hev

/-- Witness for `claim1_rewrite_soundness_numeric`: identity elimination
on `x + 0` with `x = 3` preserves the value `3`. -/
theorem claim1_rewrite_soundness_numeric_witness :
    plainEval (AST.var "x") [("x", Value.num 3)] = Except.ok (Value.num 3) :=
  claim1_rewrite_soundness_numeric
    (AST.binOp (AST.var "x") "+" (AST.num 0)) (AST.var "x")
    [("x", Value.num 3)] (Value.num 3) rfl rfl
    ⟨tryAlgebraicSimplification, by simp [transformFuncs], "add_zero_elimination", rfl⟩
    (by with_unfolding_all rfl)

/-- Counterexample to claim C1 as stated (for every expression and any
single rewrite): identity elimination rewrites the expression
`"a" + 0` to `"a"`, but the plain evaluator concatenates, giving
`"a0.0"` before the rewrite and `"a"` after it. -/
theorem claim1_counterexample :
    IsRewrite (AST.binOp (AST.str "a") "+" (AST.num 0)) (AST.str "a") ∧
    plainEval (AST.binOp (AST.str "a") "+" (AST.num 0)) [] =
      Except.ok (Value.str "a0.0") ∧
    plainEval (AST.str "a") [] = Except.ok (Value.str "a") ∧
    Value.str "a0.0" ≠ Value.str "a" := by
  refine ⟨⟨tryAlgebraicSimplification, by simp [transformFuncs],
    "add_zero_elimination", rfl⟩, ?_, rfl, by simp⟩
  with_unfolding_all rfl

/-! ### Claim C2: cost monotonicity of the optimizer -/

theorem genSuccessors_spec (s x : OptState) (hx : x ∈ genSuccessors s) :
    x.cost = cost x.ast ∧ x.cost < s.cost ∧ x.depth = s.depth + 1 := by
  simp only [genSuccessors] at hx
  obtain ⟨f, _, hf⟩ := List.mem_filterMap.mp hx
  simp only [succOf] at hf
  cases hap : applyTransformRecursively f s.ast with
  | none => rw [hap] at hf; simp at hf
  | some pr =>
    obtain ⟨na, nm⟩ := pr
    rw [hap] at hf
    dsimp only at hf
    split at hf
    case isTrue hcond =>
      simp at hf
      rw [← hf]
      exact ⟨rfl, hcond.2, rfl⟩
    case isFalse hcond => simp at hf

theorem optLoop_best (maxDepth : ℕ) : ∀ (fuel : ℕ) (c : SearchCtx),
    (∀ s ∈ c.queue, s.cost = cost s.ast) →
    c.best.cost = cost c.best.ast →
    (optLoop maxDepth fuel c).1.best.cost =
        cost (optLoop maxDepth fuel c).1.best.ast ∧
      (optLoop maxDepth fuel c).1.best.cost ≤ c.best.cost := by
  intro fuel
  induction fuel with
  | zero => intro c hq hb; exact ⟨hb, le_refl _⟩
  | succ fuel ih =>
    intro c hq hb
    simp only [optLoop]
    cases hpop : popMinQ c.queue with
    | none => exact ⟨hb, le_refl _⟩
    | some pr =>
      obtain ⟨cur, rest⟩ := pr
      have hperm := popMinQ_perm c.queue cur rest hpop
      have hcur : cur ∈ c.queue := hperm.symm.subset (List.mem_cons_self cur rest)
      have hrest : ∀ s ∈ rest, s ∈ c.queue := fun s hs =>
        hperm.symm.subset (List.mem_cons_of_mem cur hs)
      dsimp only
      split
      · exact ⟨hb, le_refl _⟩
      · split
        · exact ih { c with queue := rest } (fun s hs => hq s (hrest s hs)) hb
        · have hbest' :
              (if cur.cost < c.best.cost then cur else c.best).cost =
                cost (if cur.cost < c.best.cost then cur else c.best).ast ∧
              (if cur.cost < c.best.cost then cur else c.best).cost ≤ c.best.cost := by
            split
            · exact ⟨hq cur hcur, by omega⟩
            · exact ⟨hb, le_refl _⟩
          split
          · have := ih ⟨rest, cur.ast :: c.visited,
                if cur.cost < c.best.cost then cur else c.best⟩
              (fun s hs => hq s (hrest s hs)) hbest'.1
            exact ⟨this.1, le_trans this.2 hbest'.2⟩
          · have := ih ⟨rest ++ genSuccessors cur, cur.ast :: c.visited,
                if cur.cost < c.best.cost then cur else c.best⟩
              (fun s hs => by
                rcases List.mem_append.mp hs with hs | hs
                · exact hq s (hrest s hs)
                · exact (genSuccessors_spec cur s hs).1) hbest'.1
            exact ⟨this.1, le_trans this.2 hbest'.2⟩

/-- Claim C2 (confirmed): for every AST, the optimizer's returned AST costs
no more than the input AST. -/
theorem claim2_cost_monotonic (A : AST) : cost (optimize A).1.1 ≤ cost A := by
  have h := optLoop_best 5 1025 ⟨[⟨A, cost A, 0, []⟩], [], ⟨A, cost A, 0, []⟩⟩
    (by intro s hs; simp at hs; rw [hs]) rfl
  simp only [optimize, optimizeWith]
  cases hloop : optLoop 5 1025 ⟨[⟨A, cost A, 0, []⟩], [], ⟨A, cost A, 0, []⟩⟩ with
  | mk c ex =>
    rw [hloop] at h
    dsimp only
    dsimp only at h
    omega

/-! ### Claim C6: the search loop always drains its queue -/

theorem tryComm_cost (e e' : AST) (nm : String)
    (h : tryCommutativeReorder e = some (e', nm)) : cost e' = cost e := by
  cases e with
  | binOp l op r =>
    simp only [tryCommutativeReorder] at h
    split at h
    case isFalse => simp at h
    case isTrue =>
      split at h
      case isFalse => simp at h
      case isTrue =>
        simp at h
        rw [← h.1]
        simp only [cost]
        omega
  | num a => simp [tryCommutativeReorder] at h
  | str s => simp [tryCommutativeReorder] at h
  | var n => simp [tryCommutativeReorder] at h
  | assign n w => simp [tryCommutativeReorder] at h
  | ifN c t e2 => simp [tryCommutativeReorder] at h
  | whileN c b => simp [tryCommutativeReorder] at h
  | printN e2 => simp [tryCommutativeReorder] at h
  | block s => simp [tryCommutativeReorder] at h

theorem applyRec_cost (f : AST → Option (AST × String))
    (hf : ∀ e e' nm, f e = some (e', nm) → cost e' = cost e) :
    (e : AST) → ∀ e' nm, applyTransformRecursively f e = some (e', nm) →
      cost e' = cost e
  | AST.binOp l op r => by
    intro e' nm hrec
    simp only [applyTransformRecursively] at hrec
    cases hfroot : f (AST.binOp l op r) with
    | some pr =>
      rw [hfroot] at hrec
      simp at hrec
      exact hf _ e' nm (by rw [hfroot, hrec])
    | none =>
      rw [hfroot] at hrec
      dsimp only at hrec
      cases hl : applyTransformRecursively f l with
      | some pl =>
        obtain ⟨nl, nml⟩ := pl
        rw [hl] at hrec
        simp at hrec
        have := applyRec_cost f hf l nl nml hl
        rw [← hrec.1]
        simp only [cost]
        omega
      | none =>
        rw [hl] at hrec
        dsimp only at hrec
        cases hr : applyTransformRecursively f r with
        | some pr2 =>
          obtain ⟨nr, nmr⟩ := pr2
          rw [hr] at hrec
          simp at hrec
          have := applyRec_cost f hf r nr nmr hr
          rw [← hrec.1]
          simp only [cost]
          omega
        | none => rw [hr] at hrec; simp at hrec
  | AST.num a => by
    intro e' nm hrec
    exact hf _ e' nm hrec
  | AST.str s => by
    intro e' nm hrec
    exact hf _ e' nm hrec
  | AST.var n => by
    intro e' nm hrec
    exact hf _ e' nm hrec
  | AST.assign n w => by
    intro e' nm hrec
    exact hf _ e' nm hrec
  | AST.ifN c t e2 => by
    intro e' nm hrec
    exact hf _ e' nm hrec
  | AST.whileN c b => by
    intro e' nm hrec
    exact hf _ e' nm hrec
  | AST.printN e2 => by
    intro e' nm hrec
    exact hf _ e' nm hrec
  | AST.block s => by
    intro e' nm hrec
    exact hf _ e' nm hrec

theorem succOf_comm_none (s : OptState) (hs : s.cost = cost s.ast) :
    succOf s tryCommutativeReorder = none := by
  simp only [succOf]
  cases hap : applyTransformRecursively tryCommutativeReorder s.ast with
  | none => rfl
  | some pr =>
    obtain ⟨na, nm⟩ := pr
    dsimp only
    have hc : cost na = cost s.ast := applyRec_cost _ tryComm_cost s.ast na nm hap
    split
    case isTrue hcond => omega
    case isFalse => rfl

theorem genSuccessors_length (s : OptState) (hs : s.cost = cost s.ast) :
    (genSuccessors s).length ≤ 3 := by
  simp only [genSuccessors, transformFuncs, List.filterMap]
  rw [succOf_comm_none s hs]
  cases succOf s tryConstantFolding <;>
    cases succOf s tryAlgebraicSimplification <;>
    cases succOf s tryStrengthReduction <;>
    simp [List.filterMap]

theorem countDepth_perm (q q' : List OptState) (h : q.Perm q') (d : ℕ) :
    countDepth q d = countDepth q' d :=
  (h.filter _).length_eq

theorem countDepth_cons (x : OptState) (q : List OptState) (d : ℕ) :
    countDepth (x :: q) d = (if x.depth = d then 1 else 0) + countDepth q d := by
  simp only [countDepth, List.filter_cons]
  split <;> rename_i hx <;> simp at hx <;> simp [hx] <;> omega

theorem countDepth_append (a b : List OptState) (d : ℕ) :
    countDepth (a ++ b) d = countDepth a d + countDepth b d := by
  simp [countDepth, List.filter_append]

theorem countDepth_le_length (q : List OptState) (d : ℕ) :
    countDepth q d ≤ q.length :=
  List.length_filter_le _ q

theorem countDepth_eq_zero (q : List OptState) (d : ℕ)
    (h : ∀ s ∈ q, s.depth ≠ d) : countDepth q d = 0 := by
  simp only [countDepth, List.length_eq_zero, List.filter_eq_nil]
  intro a ha
  simp [h a ha]

theorem length_eq_sum_counts (q : List OptState) (hd : ∀ s ∈ q, s.depth ≤ 5) :
    q.length = ∑ d ∈ Finset.range 6, countDepth q d := by
  induction q with
  | nil => simp [countDepth]
  | cons x q ih =>
    have hx : x.depth ≤ 5 := hd x (List.mem_cons_self x q)
    have hq : ∀ s ∈ q, s.depth ≤ 5 := fun s hs => hd s (List.mem_cons_of_mem x hs)
    simp only [List.length_cons, ih hq]
    rw [Finset.sum_congr rfl (fun d _ => countDepth_cons x q d)]
    rw [Finset.sum_add_distrib]
    have : (∑ d ∈ Finset.range 6, if x.depth = d then 1 else 0) = 1 := by
      rw [Finset.sum_ite_eq]
      simp
      omega
    omega

theorem queue_length_le (q : List OptState)
    (hc : ∀ d, countDepth q d ≤ 3) (hd : ∀ s ∈ q, s.depth ≤ 5) :
    q.length ≤ 18 := by
  rw [length_eq_sum_counts q hd]
  calc ∑ d ∈ Finset.range 6, countDepth q d ≤ ∑ _d ∈ Finset.range 6, 3 :=
        Finset.sum_le_sum (fun d _ => hc d)
    _ = 18 := by simp

theorem phiQ_perm (q q' : List OptState) (h : q.Perm q') : phiQ q = phiQ q' :=
  (h.map _).sum_eq

theorem phiQ_cons (x : OptState) (q : List OptState) :
    phiQ (x :: q) = 4 ^ (5 - x.depth) + phiQ q := by
  simp [phiQ]

theorem phiQ_append (a b : List OptState) :
    phiQ (a ++ b) = phiQ a + phiQ b := by
  simp [phiQ]

theorem phiQ_const_depth (q : List OptState) (D : ℕ)
    (h : ∀ x ∈ q, x.depth = D) : phiQ q = q.length * 4 ^ (5 - D) := by
  induction q with
  | nil => simp [phiQ]
  | cons x q ih =>
    rw [phiQ_cons, ih (fun s hs => h s (List.mem_cons_of_mem x hs)),
      h x (List.mem_cons_self x q)]
    simp [List.length_cons]
    ring

theorem optLoop_drains : ∀ (fuel : ℕ) (c : SearchCtx),
    QueueInv 5 c.queue → phiQ c.queue < fuel →
    (optLoop 5 fuel c).2 = ExitReason.queueEmpty ∧
      (optLoop 5 fuel c).1.queue = [] := by
  intro fuel
  induction fuel with
  | zero => intro c hinv hphi; omega
  | succ fuel ih =>
    intro c hinv hphi
    obtain ⟨hcount, horder, hdepth, hcost⟩ := hinv
    simp only [optLoop]
    cases hpop : popMinQ c.queue with
    | none =>
      have hq : c.queue = [] := (popMinQ_none_iff _).mp hpop
      exact ⟨rfl, hq⟩
    | some pr =>
      obtain ⟨cur, rest⟩ := pr
      have hperm := popMinQ_perm c.queue cur rest hpop
      have hmin := popMinQ_min c.queue cur rest hpop
      have hcur : cur ∈ c.queue := hperm.symm.subset (List.mem_cons_self cur rest)
      have hrestmem : ∀ s ∈ rest, s ∈ c.queue := fun s hs =>
        hperm.symm.subset (List.mem_cons_of_mem cur hs)
      have hlen : c.queue.length ≤ 18 := queue_length_le _ hcount hdepth
      dsimp only
      rw [if_neg (show ¬(100 ≤ c.queue.length) by omega)]
      have hphirest : phiQ rest + 4 ^ (5 - cur.depth) = phiQ c.queue := by
        rw [phiQ_perm _ _ hperm, phiQ_cons]
        omega
      have hpow1 : 1 ≤ 4 ^ (5 - cur.depth) := Nat.one_le_pow _ _ (by norm_num)
      have hinvrest : QueueInv 5 rest := by
        refine ⟨?_, ?_, ?_, ?_⟩
        · intro d
          have h1 := countDepth_perm _ _ hperm d
          rw [countDepth_cons] at h1
          have h2 := hcount d
          omega
        · exact fun s hs t ht hlt => horder s (hrestmem s hs) t (hrestmem t ht) hlt
        · exact fun s hs => hdepth s (hrestmem s hs)
        · exact fun s hs => hcost s (hrestmem s hs)
      split
      · exact ih { c with queue := rest } hinvrest (by dsimp only; omega)
      · split
        · exact ih ⟨rest, cur.ast :: c.visited,
            if cur.cost < c.best.cost then cur else c.best⟩ hinvrest
            (by dsimp only; omega)
        · rename_i hdeep
          have hcurcost : cur.cost = cost cur.ast := hcost cur hcur
          have hgenlen : (genSuccessors cur).length ≤ 3 :=
            genSuccessors_length cur hcurcost
          have hgenspec : ∀ x ∈ genSuccessors cur,
              x.cost = cost x.ast ∧ x.cost < cur.cost ∧ x.depth = cur.depth + 1 :=
            fun x hx => genSuccessors_spec cur x hx
          have hshallow : ∀ t ∈ c.queue, t.depth ≤ cur.depth := by
            intro t ht
            by_contra hgt
            push_neg at hgt
            have h1 := horder cur hcur t ht hgt
            have h2 := hmin t ht
            omega
          have hrest0 : countDepth rest (cur.depth + 1) = 0 :=
            countDepth_eq_zero _ _ (fun s hs => by
              have := hshallow s (hrestmem s hs)
              omega)
          have hinv' : QueueInv 5 (rest ++ genSuccessors cur) := by
            refine ⟨?_, ?_, ?_, ?_⟩
            · intro d
              rw [countDepth_append]
              by_cases hd : d = cur.depth + 1
              · subst hd
                rw [hrest0]
                have := countDepth_le_length (genSuccessors cur) (cur.depth + 1)
                omega
              · have hg0 : countDepth (genSuccessors cur) d = 0 :=
                  countDepth_eq_zero _ _ (fun s hs => by
                    rw [(hgenspec s hs).2.2]
                    omega)
                have := hinvrest.1 d
                omega
            · intro s hs t ht hlt
              rcases List.mem_append.mp hs with hs | hs <;>
                rcases List.mem_append.mp ht with ht | ht
              · exact horder s (hrestmem s hs) t (hrestmem t ht) hlt
              · have h1 := (hgenspec t ht).2.1
                have h2 := hmin s (hrestmem s hs)
                omega
              · have h1 := (hgenspec s hs).2.2
                have h2 := hshallow t (hrestmem t ht)
                omega
              · have h1 := (hgenspec s hs).2.2
                have h2 := (hgenspec t ht).2.2
                omega
            · intro s hs
              rcases List.mem_append.mp hs with hs | hs
              · exact hdepth s (hrestmem s hs)
              · rw [(hgenspec s hs).2.2]
                omega
            · intro s hs
              rcases List.mem_append.mp hs with hs | hs
              · exact hcost s (hrestmem s hs)
              · exact (hgenspec s hs).1
          have hphigen : phiQ (genSuccessors cur) =
              (genSuccessors cur).length * 4 ^ (5 - (cur.depth + 1)) :=
            phiQ_const_depth _ _ (fun x hx => (hgenspec x hx).2.2)
          have hphi' : phiQ (rest ++ genSuccessors cur) < fuel := by
            rw [phiQ_append, hphigen]
            have hd4 : cur.depth ≤ 4 := by omega
            have he1 : 5 - cur.depth = (4 - cur.depth) + 1 := by omega
            have he2 : 5 - (cur.depth + 1) = 4 - cur.depth := by omega
            rw [he2]
            have hmul : (genSuccessors cur).length * 4 ^ (4 - cur.depth) ≤
                3 * 4 ^ (4 - cur.depth) :=
              Nat.mul_le_mul_right _ hgenlen
            have h4 : 4 ^ (5 - cur.depth) = 4 * 4 ^ (4 - cur.depth) := by
              rw [he1, pow_succ]
              ring
            omega
          exact ih ⟨rest ++ genSuccessors cur, cur.ast :: c.visited,
            if cur.cost < c.best.cost then cur else c.best⟩ hinv'
            (by dsimp only; omega)

/-- Claim C6 (confirmed): for every input AST, the optimizer's search loop
ends only by draining the priority queue — the final queue is empty, the
100-element cut-off is never reached (the queue provably never exceeds 18
states), and the step budget is never exhausted. -/
theorem claim6_queue_always_drained (A : AST) :
    (optimize A).2 = ExitReason.queueEmpty := by
  have h := optLoop_drains 1025 ⟨[⟨A, cost A, 0, []⟩], [], ⟨A, cost A, 0, []⟩⟩
    (by
      refine ⟨?_, ?_, ?_, ?_⟩
      · intro d
        have h1 := countDepth_le_length [(⟨A, cost A, 0, []⟩ : OptState)] d
        dsimp only
        simp at h1
        omega
      · intro s hs t ht hlt
        simp at hs ht
        rw [hs, ht] at hlt
        simp at hlt
      · intro s hs
        simp at hs
        rw [hs]
        simp
      · intro s hs
        simp at hs
        rw [hs])
    (by
      have h1 : phiQ [(⟨A, cost A, 0, []⟩ : OptState)] = 1024 := by
        simp [phiQ]
      dsimp only
      omega)
  simp only [optimize, optimizeWith]
  cases hloop : optLoop 5 1025 ⟨[⟨A, cost A, 0, []⟩], [], ⟨A, cost A, 0, []⟩⟩ with
  | mk c ex =>
    rw [hloop] at h
    exact h.1

/-! ### Claim C10: environment frame property -/

theorem evaluateExpression_vars (e : AST) (st : InterpSt) :
    (evaluateExpression e st).1.vars = st.vars := by
  simp only [evaluateExpression]
  split
  · cases hdp : evalDP e st.vars st.dp with
    | mk dp' r => rfl
  · rfl

theorem execStep_frame : ∀ (fuel : ℕ) (job : ExecJob) (st : InterpSt),
    (match job with
      | ExecJob.one n => containsAssign n = false
      | ExecJob.seq l _ => containsAssignList l = false
      | ExecJob.loop c b _ =>
          containsAssign c = false ∧ containsAssignList b = false) →
    (execStep fuel job st).1.vars = st.vars := by
  intro fuel
  induction fuel with
  | zero => intro job st _; rfl
  | succ fuel ih =>
    intro job st hjob
    cases job with
    | one n =>
      dsimp only at hjob
      cases n with
      | num v =>
        simp only [execStep]
        cases hE : evaluateExpression (AST.num v) st with
        | mk st1 r =>
          have hv := evaluateExpression_vars (AST.num v) st
          rw [hE] at hv
          cases r <;> simpa using hv
      | str s =>
        simp only [execStep]
        cases hE : evaluateExpression (AST.str s) st with
        | mk st1 r =>
          have hv := evaluateExpression_vars (AST.str s) st
          rw [hE] at hv
          cases r <;> simpa using hv
      | var n =>
        simp only [execStep]
        cases hE : evaluateExpression (AST.var n) st with
        | mk st1 r =>
          have hv := evaluateExpression_vars (AST.var n) st
          rw [hE] at hv
          cases r <;> simpa using hv
      | binOp l op r =>
        simp only [execStep]
        cases hE : evaluateExpression (AST.binOp l op r) st with
        | mk st1 rr =>
          have hv := evaluateExpression_vars (AST.binOp l op r) st
          rw [hE] at hv
          cases rr <;> simpa using hv
      | assign n value => exact absurd hjob (by simp [show containsAssign (AST.assign n value) = true from rfl])
      | ifN c thenB elseB =>
        cases elseB with
        | some es =>
          have hjob2 : (containsAssign c || containsAssignList thenB ||
              containsAssignList es) = false := hjob
          simp only [Bool.or_eq_false_iff] at hjob2
          simp only [execStep]
          cases hE : evaluateExpression c st with
          | mk st1 r =>
            have hv := evaluateExpression_vars c st
            rw [hE] at hv
            cases r with
            | error m => simpa using hv
            | ok cv =>
              dsimp only
              split
              · rw [ih (ExecJob.seq thenB none) st1 hjob2.1.2]
                exact hv
              · rw [ih (ExecJob.seq es none) st1 hjob2.2]
                exact hv
        | none =>
          have hjob2 : (containsAssign c || containsAssignList thenB ||
              false) = false := hjob
          simp only [Bool.or_eq_false_iff] at hjob2
          simp only [execStep]
          cases hE : evaluateExpression c st with
          | mk st1 r =>
            have hv := evaluateExpression_vars c st
            rw [hE] at hv
            cases r with
            | error m => simpa using hv
            | ok cv =>
              dsimp only
              split
              · rw [ih (ExecJob.seq thenB none) st1 hjob2.1.2]
                exact hv
              · simpa using hv
      | whileN c body =>
        have hjob2 : (containsAssign c || containsAssignList body) = false := hjob
        simp only [Bool.or_eq_false_iff] at hjob2
        simp only [execStep]
        exact ih (ExecJob.loop c body none) st ⟨hjob2.1, hjob2.2⟩
      | printN e =>
        simp only [execStep]
        cases hE : evaluateExpression e st with
        | mk st1 r =>
          have hv := evaluateExpression_vars e st
          rw [hE] at hv
          cases r <;> simpa using hv
      | block stmts =>
        have hjob2 : containsAssignList stmts = false := hjob
        simp only [execStep]
        exact ih (ExecJob.seq stmts none) st hjob2
    | seq l acc =>
      dsimp only at hjob
      cases l with
      | nil => rfl
      | cons s rest =>
        have hjob2 : (containsAssign s || containsAssignList rest) = false := hjob
        simp only [Bool.or_eq_false_iff] at hjob2
        simp only [execStep]
        cases hE : execStep fuel (ExecJob.one s) st with
        | mk st1 r =>
          have hv : st1.vars = st.vars := by
            have h4 := ih (ExecJob.one s) st hjob2.1
            rw [hE] at h4
            exact h4
          cases r with
          | ok v =>
            dsimp only
            rw [ih (ExecJob.seq rest v) st1 hjob2.2]
            exact hv
          | err m => exact hv
          | fuelOut => exact hv
    | loop c body acc =>
      dsimp only at hjob
      obtain ⟨hc, hb⟩ := hjob
      simp only [execStep]
      cases hE : evaluateExpression c st with
      | mk st1 r =>
        have hv := evaluateExpression_vars c st
        rw [hE] at hv
        cases r with
        | error m => simpa using hv
        | ok cv =>
          dsimp only
          split
          · cases hB : execStep fuel (ExecJob.seq body acc) st1 with
            | mk st2 r2 =>
              have hv2 : st2.vars = st1.vars := by
                have h4 := ih (ExecJob.seq body acc) st1 hb
                rw [hB] at h4
                exact h4
              cases r2 with
              | ok acc1 =>
                dsimp only
                rw [ih (ExecJob.loop c body acc1) st2 ⟨hc, hb⟩, hv2]
                exact hv
              | err m => exact hv.symm ▸ hv2.symm ▸ rfl
              | fuelOut => exact hv.symm ▸ hv2.symm ▸ rfl
          · simpa using hv

/-- Claim C10 (confirmed): expression evaluation (memoized or plain) never
mutates the variable environment; executing any assignment-free statement
leaves the environment unchanged; and an `Assignment` is exactly the
construct that writes — on success it binds the evaluated value. -/
theorem claim10_environment_frame :
    (∀ e st, (evaluateExpression e st).1.vars = st.vars) ∧
    (∀ fuel n st, containsAssign n = false →
      (execute fuel n st).1.vars = st.vars) ∧
    (∀ fuel n value st st1 v,
      execute fuel (AST.assign n value) st = (st1, ExecRes.ok (some v)) →
      st1.vars = dictSet st.vars n v) := by
  refine ⟨evaluateExpression_vars, ?_, ?_⟩
  · intro fuel n st h
    exact execStep_frame fuel (ExecJob.one n) st h
  · intro fuel n value st st1 v h
    cases fuel with
    | zero => simp [execute, execStep] at h
    | succ fuel =>
      simp only [execute, execStep] at h
      cases hE : evaluateExpression value st with
      | mk stE r =>
        have hv := evaluateExpression_vars value st
        rw [hE] at hv
        cases r with
        | error m => rw [hE] at h; simp at h
        | ok w =>
          rw [hE] at h
          simp at h
          obtain ⟨h1, h2⟩ := h
          subst h2
          rw [← h1]
          exact congrArg (fun q => dictSet q n w) hv

/-- Witness for `claim10_environment_frame` at concrete inputs. -/
theorem claim10_environment_frame_witness :
    (evaluateExpression (AST.var "x") (initInterp true)).1.vars =
      (initInterp true).vars ∧
    (execute 5 (AST.printN (AST.num 1)) (initInterp true)).1.vars =
      (initInterp true).vars ∧
    (⟨[("x", Value.num 1)], ⟨[((ReprT.rnum 1, []), Value.num 1)], 1, 0⟩, true,
        []⟩ : InterpSt).vars =
      dictSet (initInterp true).vars "x" (Value.num 1) :=
  ⟨claim10_environment_frame.1 _ _,
   claim10_environment_frame.2.1 5 _ _ rfl,
   claim10_environment_frame.2.2 5 "x" (AST.num 1) (initInterp true)
     ⟨[("x", Value.num 1)], ⟨[((ReprT.rnum 1, []), Value.num 1)], 1, 0⟩, true, []⟩
     (Value.num 1) (by rfl)⟩

/-! ### Claim C4: DP/plain evaluator equivalence on string-free inputs -/

theorem exprPure_of_noString : (e : AST) → noStringNode e = true → exprPure e = true
  | AST.num _, _ => rfl
  | AST.var _, _ => rfl
  | AST.binOp l _ r, h => by
    have h2 : (noStringNode l && noStringNode r) = true := h
    simp only [Bool.and_eq_true] at h2
    have hl := exprPure_of_noString l h2.1
    have hr := exprPure_of_noString r h2.2
    show (exprPure l && exprPure r) = true
    simp [hl, hr]
  | AST.str _, h => by simp [noStringNode] at h
  | AST.assign _ _, h => by simp [noStringNode] at h
  | AST.ifN _ _ _, h => by simp [noStringNode] at h
  | AST.whileN _ _, h => by simp [noStringNode] at h
  | AST.printN _, h => by simp [noStringNode] at h
  | AST.block _, h => by simp [noStringNode] at h

theorem repr_inj_pure : (e1 : AST) → (e2 : AST) →
    exprPure e1 = true → exprPure e2 = true →
    getNodeRepr e1 = getNodeRepr e2 → e1 = e2
  | AST.num a, AST.num b, _, _, h => by
    simp only [getNodeRepr, ReprT.rnum.injEq] at h
    rw [h]
  | AST.num a, AST.str s, _, _, h => by simp [getNodeRepr] at h
  | AST.num a, AST.var n, _, _, h => by simp [getNodeRepr] at h
  | AST.num a, AST.binOp l o r, _, _, h => by simp [getNodeRepr] at h
  | AST.str a, AST.num b, _, _, h => by simp [getNodeRepr] at h
  | AST.str a, AST.str b, _, _, h => by
    simp only [getNodeRepr, ReprT.rstr.injEq] at h
    rw [h]
  | AST.str a, AST.var n, _, _, h => by simp [getNodeRepr] at h
  | AST.str a, AST.binOp l o r, _, _, h => by simp [getNodeRepr] at h
  | AST.var a, AST.num b, _, _, h => by simp [getNodeRepr] at h
  | AST.var a, AST.str b, _, _, h => by simp [getNodeRepr] at h
  | AST.var a, AST.var n, _, _, h => by
    simp only [getNodeRepr, ReprT.rvar.injEq] at h
    rw [h]
  | AST.var a, AST.binOp l o r, _, _, h => by simp [getNodeRepr] at h
  | AST.binOp l1 o1 r1, AST.num b, _, _, h => by simp [getNodeRepr] at h
  | AST.binOp l1 o1 r1, AST.str b, _, _, h => by simp [getNodeRepr] at h
  | AST.binOp l1 o1 r1, AST.var n, _, _, h => by simp [getNodeRepr] at h
  | AST.binOp l1 o1 r1, AST.binOp l2 o2 r2, h1, h2, h => by
    have h1' : (exprPure l1 && exprPure r1) = true := h1
    have h2' : (exprPure l2 && exprPure r2) = true := h2
    simp only [Bool.and_eq_true] at h1' h2'
    simp only [getNodeRepr, ReprT.rbin.injEq] at h
    have hl := repr_inj_pure l1 l2 h1'.1 h2'.1 h.1
    have hr := repr_inj_pure r1 r2 h1'.2 h2'.2 h.2.2
    rw [hl, hr, h.2.1]
  | AST.num a, AST.assign x y, _, h2, _ => by simp [exprPure] at h2
  | AST.num a, AST.ifN x y z, _, h2, _ => by simp [exprPure] at h2
  | AST.num a, AST.whileN x y, _, h2, _ => by simp [exprPure] at h2
  | AST.num a, AST.printN x, _, h2, _ => by simp [exprPure] at h2
  | AST.num a, AST.block x, _, h2, _ => by simp [exprPure] at h2
  | AST.str a, AST.assign x y, _, h2, _ => by simp [exprPure] at h2
  | AST.str a, AST.ifN x y z, _, h2, _ => by simp [exprPure] at h2
  | AST.str a, AST.whileN x y, _, h2, _ => by simp [exprPure] at h2
  | AST.str a, AST.printN x, _, h2, _ => by simp [exprPure] at h2
  | AST.str a, AST.block x, _, h2, _ => by simp [exprPure] at h2
  | AST.var a, AST.assign x y, _, h2, _ => by simp [exprPure] at h2
  | AST.var a, AST.ifN x y z, _, h2, _ => by simp [exprPure] at h2
  | AST.var a, AST.whileN x y, _, h2, _ => by simp [exprPure] at h2
  | AST.var a, AST.printN x, _, h2, _ => by simp [exprPure] at h2
  | AST.var a, AST.block x, _, h2, _ => by simp [exprPure] at h2
  | AST.binOp l1 o1 r1, AST.assign x y, _, h2, _ => by simp [exprPure] at h2
  | AST.binOp l1 o1 r1, AST.ifN x y z, _, h2, _ => by simp [exprPure] at h2
  | AST.binOp l1 o1 r1, AST.whileN x y, _, h2, _ => by simp [exprPure] at h2
  | AST.binOp l1 o1 r1, AST.printN x, _, h2, _ => by simp [exprPure] at h2
  | AST.binOp l1 o1 r1, AST.block x, _, h2, _ => by simp [exprPure] at h2
  | AST.assign x y, _, h1, _, _ => by simp [exprPure] at h1
  | AST.ifN x y z, _, h1, _, _ => by simp [exprPure] at h1
  | AST.whileN x y, _, h1, _, _ => by simp [exprPure] at h1
  | AST.printN x, _, h1, _, _ => by simp [exprPure] at h1
  | AST.block x, _, h1, _, _ => by simp [exprPure] at h1

theorem varsNoStrB_lookup (vars : VarMap) (n : String) (v : Value)
    (hv : varsNoStrB vars = true) (h : lookupVar vars n = some v) :
    isStr v = false := by
  have hm := lookupVar_mem vars n v h
  have := List.all_eq_true.mp hv _ hm
  simpa using this

theorem opResult_nonstr (op : String) (a b w : Value) (x y : ℚ)
    (ha : toNumOpt a = some x) (hb : toNumOpt b = some y)
    (hres : opResult op a b = OpOut.ok w) : isStr w = false := by
  simp only [opResult, ha, hb] at hres
  repeat' split at hres
  all_goals
    first
      | (cases hA : pyArith op x y <;> rw [hA] at hres <;> simp at hres <;>
          simp [← hres, isStr])
      | (simp at hres; simp [← hres, isStr])
      | simp at hres

theorem binApplyPlain_nonstr (op : String) (a b v : Value)
    (ha : isStr a = false) (hb : isStr b = false)
    (h : binApplyPlain op a b = Except.ok v) : isStr v = false := by
  simp only [binApplyPlain] at h
  split at h
  case isFalse => simp at h
  case isTrue =>
    rw [ha, hb] at h
    simp only [Bool.or_self, Bool.and_false] at h
    obtain ⟨x, hx⟩ : ∃ x, toNumOpt a = some x := by
      cases a with
      | num q => exact ⟨q, rfl⟩
      | bool bb => exact ⟨if bb then 1 else 0, rfl⟩
      | str s => simp [isStr] at ha
    obtain ⟨y, hy⟩ : ∃ y, toNumOpt b = some y := by
      cases b with
      | num q => exact ⟨q, rfl⟩
      | bool bb => exact ⟨if bb then 1 else 0, rfl⟩
      | str s => simp [isStr] at hb
    cases hres : opResult op a b with
    | ok w =>
      rw [hres] at h
      simp at h
      rw [← h]
      exact opResult_nonstr op a b w x y hx hy hres
    | typeErr => rw [hres] at h; simp at h
    | zeroDiv => rw [hres] at h; simp at h
    | unknownOp => rw [hres] at h; simp at h

theorem plainEval_nonstr : (e : AST) → ∀ (vars : VarMap) (v : Value),
    noStringNode e = true → varsNoStrB vars = true →
    plainEval e vars = Except.ok v → isStr v = false
  | AST.num a, vars, v, _, _, h => by
    simp [plainEval] at h
    simp [← h, isStr]
  | AST.var n, vars, v, _, hv, h => by
    simp only [plainEval] at h
    cases hl : lookupVar vars n with
    | none => rw [hl] at h; simp at h
    | some w =>
      rw [hl] at h
      simp at h
      subst h
      exact varsNoStrB_lookup vars n _ hv hl
  | AST.binOp l op r, vars, v, he, hv, h => by
    have he2 : (noStringNode l && noStringNode r) = true := he
    simp only [Bool.and_eq_true] at he2
    simp only [plainEval] at h
    cases hL : plainEval l vars with
    | error m => rw [hL] at h; simp at h
    | ok lv =>
      rw [hL] at h
      cases hR : plainEval r vars with
      | error m => rw [hR] at h; simp at h
      | ok rv =>
        rw [hR] at h
        dsimp only at h
        exact binApplyPlain_nonstr op lv rv v
          (plainEval_nonstr l vars lv he2.1 hv hL)
          (plainEval_nonstr r vars rv he2.2 hv hR) h
  | AST.str s, vars, v, he, _, _ => by simp [noStringNode] at he
  | AST.assign n w, vars, v, he, _, _ => by simp [noStringNode] at he
  | AST.ifN c t e2, vars, v, he, _, _ => by simp [noStringNode] at he
  | AST.whileN c b, vars, v, he, _, _ => by simp [noStringNode] at he
  | AST.printN e2, vars, v, he, _, _ => by simp [noStringNode] at he
  | AST.block s, vars, v, he, _, _ => by simp [noStringNode] at he

theorem binApply_resOpt_agree (op : String) (a b : Value)
    (ha : isStr a = false) (hb : isStr b = false) :
    resOpt (binApplyDP op a b) = resOpt (binApplyPlain op a b) := by
  simp only [binApplyDP, binApplyPlain]
  by_cases hm : opInMap op = true
  · rw [if_pos hm, if_pos hm]
    rw [ha, hb]
    simp only [Bool.or_self, Bool.and_false]
    cases hres : opResult op a b <;> simp [resOpt]
  · rw [if_neg hm, if_neg hm]

theorem cache_hit_eval (e : AST) (vars : VarMap) (st : DPState) (v0 : Value)
    (he : noStringNode e = true) (hcache : CacheOK st.memo vars)
    (hlook : memoLookup (exprKey e vars) st.memo = some v0) :
    plainEval e vars = Except.ok v0 := by
  obtain ⟨e1, hn1, hr1, he1⟩ := hcache _ _ hlook rfl
  have hpe := exprPure_of_noString e he
  have hp1 := exprPure_of_noString e1 hn1
  have heq := repr_inj_pure e1 e hp1 hpe hr1
  rw [← heq]
  exact he1

theorem cacheOK_store (memo : List ((ReprT × List (String × Value)) × Value))
    (vars : VarMap) (e : AST) (v : Value)
    (hn : noStringNode e = true) (hev : plainEval e vars = Except.ok v)
    (hc : CacheOK memo vars) :
    CacheOK ((exprKey e vars, v) :: memo) vars := by
  intro k w hlk hsnap
  simp only [memoLookup] at hlk
  split at hlk
  case isTrue hk =>
    simp at hlk
    refine ⟨e, hn, ?_, by rw [hev, hlk]⟩
    rw [← hk]
    rfl
  case isFalse hk => exact hc k w hlk hsnap

theorem evalDP_plain_agree : (e : AST) → ∀ (vars : VarMap) (st : DPState),
    noStringNode e = true → varsNoStrB vars = true →
    CacheOK st.memo vars →
    CacheOK (evalDP e vars st).1.memo vars ∧
    resOpt (evalDP e vars st).2 = resOpt (plainEval e vars)
  | AST.num a, vars, st, hn, hv, hcache => by
    simp only [evalDP]
    cases hlook : memoLookup (exprKey (AST.num a) vars) st.memo with
    | some v0 =>
      dsimp only
      refine ⟨hcache, ?_⟩
      rw [cache_hit_eval (AST.num a) vars st v0 hn hcache hlook]
    | none =>
      dsimp only
      exact ⟨cacheOK_store _ _ _ _ hn rfl hcache, rfl⟩
  | AST.var n, vars, st, hn, hv, hcache => by
    simp only [evalDP]
    cases hlook : memoLookup (exprKey (AST.var n) vars) st.memo with
    | some v0 =>
      dsimp only
      refine ⟨hcache, ?_⟩
      rw [cache_hit_eval (AST.var n) vars st v0 hn hcache hlook]
    | none =>
      dsimp only
      cases hlv : lookupVar vars n with
      | some w =>
        dsimp only
        refine ⟨cacheOK_store _ _ _ _ hn (by simp only [plainEval, hlv]) hcache, ?_⟩
        simp only [plainEval, hlv]
      | none =>
        dsimp only
        refine ⟨hcache, ?_⟩
        simp only [plainEval, hlv, resOpt]
  | AST.binOp l op r, vars, st, hn, hv, hcache => by
    have hn2 : (noStringNode l && noStringNode r) = true := hn
    simp only [Bool.and_eq_true] at hn2
    rw [evalDP]
    dsimp only
    cases hlook : memoLookup (exprKey (AST.binOp l op r) vars) st.memo with
    | some v0 =>
      dsimp only
      refine ⟨hcache, ?_⟩
      rw [cache_hit_eval (AST.binOp l op r) vars st v0 hn hcache hlook]
    | none =>
      dsimp only
      have hcache1 : CacheOK
          ({ st with subproblemCount := st.subproblemCount + 1 } : DPState).memo vars :=
        hcache
      cases hL : evalDP l vars { st with subproblemCount := st.subproblemCount + 1 } with
      | mk st2 lr =>
        have IHl := evalDP_plain_agree l vars
          { st with subproblemCount := st.subproblemCount + 1 } hn2.1 hv hcache1
        rw [hL] at IHl
        obtain ⟨hc2, hagl⟩ := IHl
        cases lr with
        | error m =>
          dsimp only
          refine ⟨hc2, ?_⟩
          simp only [plainEval]
          cases hPL : plainEval l vars with
          | error m2 => simp [resOpt]
          | ok lv2 => rw [hPL] at hagl; simp [resOpt] at hagl
        | ok lv =>
          dsimp only
          have hPL : plainEval l vars = Except.ok lv := by
            cases hPL : plainEval l vars with
            | error m2 => rw [hPL] at hagl; simp [resOpt] at hagl
            | ok lv2 =>
              rw [hPL] at hagl
              simp [resOpt] at hagl
              rw [hagl]
          cases hR : evalDP r vars st2 with
          | mk st3 rr =>
            have IHr := evalDP_plain_agree r vars st2 hn2.2 hv hc2
            rw [hR] at IHr
            obtain ⟨hc3, hagr⟩ := IHr
            cases rr with
            | error m =>
              dsimp only
              refine ⟨hc3, ?_⟩
              simp only [plainEval]
              rw [hPL]
              dsimp only
              cases hPR : plainEval r vars with
              | error m2 => simp [resOpt]
              | ok rv2 => rw [hPR] at hagr; simp [resOpt] at hagr
            | ok rv =>
              have hPR : plainEval r vars = Except.ok rv := by
                cases hPR : plainEval r vars with
                | error m2 => rw [hPR] at hagr; simp [resOpt] at hagr
                | ok rv2 =>
                  rw [hPR] at hagr
                  simp [resOpt] at hagr
                  rw [hagr]
              have hlvs : isStr lv = false := plainEval_nonstr l vars lv hn2.1 hv hPL
              have hrvs : isStr rv = false := plainEval_nonstr r vars rv hn2.2 hv hPR
              have hagree := binApply_resOpt_agree op lv rv hlvs hrvs
              cases hB : binApplyDP op lv rv with
              | error m =>
                dsimp only
                rw [hB]
                dsimp only
                refine ⟨hc3, ?_⟩
                simp only [plainEval]
                rw [hPL]
                dsimp only
                rw [hPR]
                dsimp only
                rw [hB] at hagree
                simp [resOpt] at hagree
                cases hBP : binApplyPlain op lv rv with
                | error m2 => simp [resOpt]
                | ok w => rw [hBP] at hagree; simp [resOpt] at hagree
              | ok v0 =>
                dsimp only
                rw [hB]
                dsimp only
                have hBP : binApplyPlain op lv rv = Except.ok v0 := by
                  rw [hB] at hagree
                  cases hBP : binApplyPlain op lv rv with
                  | error m2 => rw [hBP] at hagree; simp [resOpt] at hagree
                  | ok w =>
                    rw [hBP] at hagree
                    simp [resOpt] at hagree
                    rw [hagree]
                have hPE : plainEval (AST.binOp l op r) vars = Except.ok v0 := by
                  simp only [plainEval]
                  rw [hPL]
                  dsimp only
                  rw [hPR]
                  dsimp only
                  exact hBP
                refine ⟨cacheOK_store _ _ _ _ hn hPE hc3, ?_⟩
                rw [hPE]
  | AST.str s, vars, st, hn, hv, hcache => by simp [noStringNode] at hn
  | AST.assign n w, vars, st, hn, hv, hcache => by simp [noStringNode] at hn
  | AST.ifN c t e2, vars, st, hn, hv, hcache => by simp [noStringNode] at hn
  | AST.whileN c b, vars, st, hn, hv, hcache => by simp [noStringNode] at hn
  | AST.printN e2, vars, st, hn, hv, hcache => by simp [noStringNode] at hn
  | AST.block s, vars, st, hn, hv, hcache => by simp [noStringNode] at hn

/-- Claim C4 (confirmed): on expressions free of string literals, with no
string-valued variable binding, the memoized DP evaluator (run on a fresh
evaluator instance) returns exactly the plain recursive evaluator's value
— and faults exactly when it faults. -/
theorem claim4_dp_plain_equivalence (e : AST) (vars : VarMap)
    (hn : noStringNode e = true) (hv : varsNoStrB vars = true) :
    resOpt (evalDP e vars initDP).2 = resOpt (plainEval e vars) :=
  (evalDP_plain_agree e vars initDP hn hv
    (fun k v hlk _ => by simp [initDP, memoLookup] at hlk)).2

/-- Witness for `claim4_dp_plain_equivalence` at a concrete expression. -/
theorem claim4_dp_plain_equivalence_witness :
    resOpt (evalDP (AST.binOp (AST.var "x") "+" (AST.num 1))
        [("x", Value.num 2)] initDP).2 =
      resOpt (plainEval (AST.binOp (AST.var "x") "+" (AST.num 1))
        [("x", Value.num 2)]) :=
  claim4_dp_plain_equivalence (AST.binOp (AST.var "x") "+" (AST.num 1))
    [("x", Value.num 2)] rfl rfl

/-! ### Claim C5: cache hit on unchanged variables, recompute on change -/

theorem insertByName_perm (p : String × Value) (l : List (String × Value)) :
    (insertByName p l).Perm (p :: l) := by
  induction l with
  | nil => simp [insertByName]
  | cons q rest ih =>
    simp only [insertByName]
    split
    · exact List.Perm.refl _
    · exact (ih.cons q).trans (List.Perm.swap p q rest)

theorem snapVars_perm (vars : VarMap) : (snapVars vars).Perm vars := by
  induction vars with
  | nil => simp [snapVars]
  | cons p rest ih =>
    simp only [snapVars, List.foldr_cons]
    exact (insertByName_perm p _).trans (ih.cons p)

theorem lookupVar_none_iff (vars : VarMap) (n : String) :
    lookupVar vars n = none ↔ ∀ v, (n, v) ∉ vars := by
  induction vars with
  | nil => simp [lookupVar]
  | cons p rest ih =>
    simp only [lookupVar]
    by_cases hp : p.1 = n
    · rw [if_pos hp]
      constructor
      · intro h
        simp at h
      · intro h
        exfalso
        apply h p.2
        have hpn : (n, p.2) = p := by
          rw [← hp]
        rw [hpn]
        exact List.mem_cons_self p rest
    · rw [if_neg hp, ih]
      constructor
      · intro h v hv
        rcases List.mem_cons.mp hv with hv | hv
        · exact hp (by rw [← hv])
        · exact h v hv
      · intro h v hv
        exact h v (List.mem_cons_of_mem p hv)

theorem lookupVar_some_of_mem (vars : VarMap) (n : String) (v : Value)
    (hnd : KeysNodup vars) (hm : (n, v) ∈ vars) : lookupVar vars n = some v := by
  induction vars with
  | nil => simp at hm
  | cons p rest ih =>
    simp only [KeysNodup, List.map_cons, List.nodup_cons] at hnd
    rcases List.mem_cons.mp hm with hm | hm
    · rw [← hm]
      simp [lookupVar]
    · have hp : p.1 ≠ n := by
        intro hcontra
        exact hnd.1 (by
          rw [hcontra]
          exact List.mem_map.mpr ⟨(n, v), hm, rfl⟩)
      simp only [lookupVar, if_neg hp]
      exact ih hnd.2 hm

theorem lookupVar_eq_of_perm (l l' : VarMap) (hnd : KeysNodup l)
    (hperm : l.Perm l') (n : String) : lookupVar l n = lookupVar l' n := by
  have hnd' : KeysNodup l' := by
    have : (l.map Prod.fst).Perm (l'.map Prod.fst) := hperm.map Prod.fst
    exact this.nodup_iff.mp hnd
  cases hl : lookupVar l n with
  | some v =>
    have hm := lookupVar_mem l n v hl
    exact (lookupVar_some_of_mem l' n v hnd' (hperm.subset hm)).symm
  | none =>
    have hnone := (lookupVar_none_iff l n).mp hl
    symm
    rw [lookupVar_none_iff]
    intro v hv
    exact hnone v (hperm.symm.subset hv)

theorem snapVars_inj_lookup (vars vars' : VarMap)
    (h1 : KeysNodup vars) (h2 : KeysNodup vars')
    (hsnap : snapVars vars = snapVars vars') (n : String) :
    lookupVar vars n = lookupVar vars' n := by
  have e1 := lookupVar_eq_of_perm vars (snapVars vars) h1 (snapVars_perm vars).symm n
  have e2 := lookupVar_eq_of_perm vars' (snapVars vars') h2 (snapVars_perm vars').symm n
  rw [e1, e2, hsnap]

theorem memoLookup_head (k : ReprT × List (String × Value)) (v : Value)
    (m : List ((ReprT × List (String × Value)) × Value)) :
    memoLookup k ((k, v) :: m) = some v := by
  simp [memoLookup]

theorem evalDP_memoized_on_success (e : AST) (vars : VarMap) (st st1 : DPState)
    (v : Value) (h : evalDP e vars st = (st1, Except.ok v)) :
    memoLookup (exprKey e vars) st1.memo = some v := by
  rw [evalDP] at h
  cases hlook : memoLookup (exprKey e vars) st.memo with
  | some v0 =>
    rw [hlook] at h
    dsimp only at h
    simp at h
    rw [← h.1]
    dsimp only
    rw [hlook, h.2]
  | none =>
    rw [hlook] at h
    dsimp only at h
    cases e with
    | num a =>
      simp at h
      rw [← h.1]
      dsimp only
      rw [memoLookup_head, h.2]
    | str s =>
      simp at h
      rw [← h.1]
      dsimp only
      rw [memoLookup_head, h.2]
    | var n =>
      dsimp only at h
      cases hlv : lookupVar vars n with
      | some w =>
        rw [hlv] at h
        simp at h
        rw [← h.1]
        dsimp only
        rw [memoLookup_head, h.2]
      | none => rw [hlv] at h; simp at h
    | binOp l op r =>
      dsimp only at h
      cases hL : evalDP l vars
          { st with subproblemCount := st.subproblemCount + 1 } with
      | mk st2 lr =>
        rw [hL] at h
        cases lr with
        | error m => simp at h
        | ok lv =>
          dsimp only at h
          cases hR : evalDP r vars st2 with
          | mk st3 rr =>
            rw [hR] at h
            cases rr with
            | error m => simp at h
            | ok rv =>
              dsimp only at h
              cases hB : binApplyDP op lv rv with
              | error m => rw [hB] at h; simp at h
              | ok v0 =>
                rw [hB] at h
                simp at h
                rw [← h.1]
                dsimp only
                rw [memoLookup_head, h.2]
    | assign n w => simp at h
    | ifN c t e2 => simp at h
    | whileN c b => simp at h
    | printN e2 => simp at h
    | block s => simp at h

theorem evalDP_subCount_mono : (e : AST) → ∀ (vars : VarMap) (st : DPState),
    st.subproblemCount ≤ (evalDP e vars st).1.subproblemCount
  | e, vars, st => by
    rw [evalDP]
    cases hlook : memoLookup (exprKey e vars) st.memo with
    | some v0 => dsimp only; exact le_refl _
    | none =>
      dsimp only
      cases e with
      | num a => dsimp only; omega
      | str s => dsimp only; omega
      | var n =>
        dsimp only
        cases hlv : lookupVar vars n with
        | some w => dsimp only; omega
        | none => dsimp only; omega
      | binOp l op r =>
        dsimp only
        have h1 := evalDP_subCount_mono l vars
          { st with subproblemCount := st.subproblemCount + 1 }
        cases hL : evalDP l vars
            { st with subproblemCount := st.subproblemCount + 1 } with
        | mk st2 lr =>
          rw [hL] at h1
          dsimp only at h1
          cases lr with
          | error m => dsimp only; omega
          | ok lv =>
            dsimp only
            have h2 := evalDP_subCount_mono r vars st2
            cases hR : evalDP r vars st2 with
            | mk st3 rr =>
              rw [hR] at h2
              dsimp only at h2
              cases rr with
              | error m => dsimp only; omega
              | ok rv =>
                dsimp only
                cases hB : binApplyDP op lv rv with
                | error m => dsimp only; omega
                | ok v0 => dsimp only; omega
      | assign n w => dsimp only; omega
      | ifN c t e2 => dsimp only; omega
      | whileN c b => dsimp only; omega
      | printN e2 => dsimp only; omega
      | block s => dsimp only; omega

theorem evalDP_subCount_on_miss (e : AST) (vars : VarMap) (st : DPState)
    (hmiss : memoLookup (exprKey e vars) st.memo = none) :
    st.subproblemCount + 1 ≤ (evalDP e vars st).1.subproblemCount := by
  rw [evalDP]
  rw [hmiss]
  dsimp only
  cases e with
  | num a => dsimp only; omega
  | str s => dsimp only; omega
  | var n =>
    dsimp only
    cases hlv : lookupVar vars n with
    | some w => dsimp only; omega
    | none => dsimp only; omega
  | binOp l op r =>
    dsimp only
    have h1 := evalDP_subCount_mono l vars
      { st with subproblemCount := st.subproblemCount + 1 }
    cases hL : evalDP l vars
        { st with subproblemCount := st.subproblemCount + 1 } with
    | mk st2 lr =>
      rw [hL] at h1
      dsimp only at h1
      cases lr with
      | error m => dsimp only; omega
      | ok lv =>
        dsimp only
        have h2 := evalDP_subCount_mono r vars st2
        cases hR : evalDP r vars st2 with
        | mk st3 rr =>
          rw [hR] at h2
          dsimp only at h2
          cases rr with
          | error m => dsimp only; omega
          | ok rv =>
            dsimp only
            cases hB : binApplyDP op lv rv with
            | error m => dsimp only; omega
            | ok v0 => dsimp only; omega
  | assign n w => dsimp only; omega
  | ifN c t e2 => dsimp only; omega
  | whileN c b => dsimp only; omega
  | printN e2 => dsimp only; omega
  | block s => dsimp only; omega

theorem evalDP_memo_extends : (e : AST) → ∀ (vars : VarMap) (st : DPState)
    (k : ReprT × List (String × Value)) (w : Value),
    memoLookup k (evalDP e vars st).1.memo = some w →
    memoLookup k st.memo = none → k.2 = snapVars vars
  | AST.num a, vars, st, k, w, h, hnone => by
    rw [evalDP] at h
    cases hlook : memoLookup (exprKey (AST.num a) vars) st.memo with
    | some v0 =>
      rw [hlook] at h
      dsimp only at h
      rw [hnone] at h
      simp at h
    | none =>
      rw [hlook] at h
      dsimp only at h
      simp only [memoLookup] at h
      split at h
      case isTrue hk =>
        rw [← hk]
        rfl
      case isFalse hk =>
        rw [hnone] at h
        simp at h
  | AST.str s, vars, st, k, w, h, hnone => by
    rw [evalDP] at h
    cases hlook : memoLookup (exprKey (AST.str s) vars) st.memo with
    | some v0 =>
      rw [hlook] at h
      dsimp only at h
      rw [hnone] at h
      simp at h
    | none =>
      rw [hlook] at h
      dsimp only at h
      simp only [memoLookup] at h
      split at h
      case isTrue hk =>
        rw [← hk]
        rfl
      case isFalse hk =>
        rw [hnone] at h
        simp at h
  | AST.var n, vars, st, k, w, h, hnone => by
    rw [evalDP] at h
    cases hlook : memoLookup (exprKey (AST.var n) vars) st.memo with
    | some v0 =>
      rw [hlook] at h
      dsimp only at h
      rw [hnone] at h
      simp at h
    | none =>
      rw [hlook] at h
      dsimp only at h
      cases hlv : lookupVar vars n with
      | some w2 =>
        rw [hlv] at h
        dsimp only at h
        simp only [memoLookup] at h
        split at h
        case isTrue hk =>
          rw [← hk]
          rfl
        case isFalse hk =>
          rw [hnone] at h
          simp at h
      | none =>
        rw [hlv] at h
        dsimp only at h
        rw [hnone] at h
        simp at h
  | AST.binOp l op r, vars, st, k, w, h, hnone => by
    rw [evalDP] at h
    cases hlook : memoLookup (exprKey (AST.binOp l op r) vars) st.memo with
    | some v0 =>
      rw [hlook] at h
      dsimp only at h
      rw [hnone] at h
      simp at h
    | none =>
      rw [hlook] at h
      dsimp only at h
      cases hL : evalDP l vars
          { st with subproblemCount := st.subproblemCount + 1 } with
      | mk st2 lr =>
        rw [hL] at h
        have hIHl : memoLookup k st2.memo = some w → k.2 = snapVars vars := by
          intro h2
          exact evalDP_memo_extends l vars
            { st with subproblemCount := st.subproblemCount + 1 } k w
            (by rw [hL]; exact h2) hnone
        cases lr with
        | error m =>
          dsimp only at h
          exact hIHl h
        | ok lv =>
          dsimp only at h
          cases hR : evalDP r vars st2 with
          | mk st3 rr =>
            rw [hR] at h
            have hIHr : memoLookup k st3.memo = some w → k.2 = snapVars vars := by
              intro h3
              cases h2 : memoLookup k st2.memo with
              | some w2 =>
                exact evalDP_memo_extends l vars
                  { st with subproblemCount := st.subproblemCount + 1 } k w2
                  (by rw [hL]; exact h2) hnone
              | none =>
                exact evalDP_memo_extends r vars st2 k w
                  (by rw [hR]; exact h3) h2
            cases rr with
            | error m =>
              dsimp only at h
              exact hIHr h
            | ok rv =>
              dsimp only at h
              cases hB : binApplyDP op lv rv with
              | error m =>
                rw [hB] at h
                dsimp only at h
                exact hIHr h
              | ok v0 =>
                rw [hB] at h
                dsimp only at h
                simp only [memoLookup] at h
                split at h
                case isTrue hk =>
                  rw [← hk]
                  rfl
                case isFalse hk => exact hIHr h
  | AST.assign n v2, vars, st, k, w, h, hnone => by
    rw [evalDP] at h
    cases hlook : memoLookup (exprKey (AST.assign n v2) vars) st.memo with
    | some v0 =>
      rw [hlook] at h
      dsimp only at h
      rw [hnone] at h
      simp at h
    | none =>
      rw [hlook] at h
      dsimp only at h
      rw [hnone] at h
      simp at h
  | AST.ifN c t e2, vars, st, k, w, h, hnone => by
    rw [evalDP] at h
    cases hlook : memoLookup (exprKey (AST.ifN c t e2) vars) st.memo with
    | some v0 =>
      rw [hlook] at h
      dsimp only at h
      rw [hnone] at h
      simp at h
    | none =>
      rw [hlook] at h
      dsimp only at h
      rw [hnone] at h
      simp at h
  | AST.whileN c b, vars, st, k, w, h, hnone => by
    rw [evalDP] at h
    cases hlook : memoLookup (exprKey (AST.whileN c b) vars) st.memo with
    | some v0 =>
      rw [hlook] at h
      dsimp only at h
      rw [hnone] at h
      simp at h
    | none =>
      rw [hlook] at h
      dsimp only at h
      rw [hnone] at h
      simp at h
  | AST.printN e2, vars, st, k, w, h, hnone => by
    rw [evalDP] at h
    cases hlook : memoLookup (exprKey (AST.printN e2) vars) st.memo with
    | some v0 =>
      rw [hlook] at h
      dsimp only at h
      rw [hnone] at h
      simp at h
    | none =>
      rw [hlook] at h
      dsimp only at h
      rw [hnone] at h
      simp at h
  | AST.block s, vars, st, k, w, h, hnone => by
    rw [evalDP] at h
    cases hlook : memoLookup (exprKey (AST.block s) vars) st.memo with
    | some v0 =>
      rw [hlook] at h
      dsimp only at h
      rw [hnone] at h
      simp at h
    | none =>
      rw [hlook] at h
      dsimp only at h
      rw [hnone] at h
      simp at h

/-- Claim C5 (confirmed): (1) after a successful `evaluate_with_dp` call,
calling again on the same evaluator with the same expression and unchanged
variables is a pure cache hit — `cache_hits` increments and the stored
value is returned with the memo table and `subproblem_count` untouched;
(2) starting from a fresh evaluator, changing any variable binding between
the two calls forces a recompute — the second call's top-level key misses
the cache and `subproblem_count` strictly increases. -/
theorem claim5_cache_correctness :
    (∀ (e : AST) (vars : VarMap) (st0 st1 : DPState) (v : Value),
      evalDP e vars st0 = (st1, Except.ok v) →
      evalDP e vars st1 =
        ({ st1 with cacheHits := st1.cacheHits + 1 }, Except.ok v)) ∧
    (∀ (e : AST) (vars vars' : VarMap) (x : String),
      KeysNodup vars → KeysNodup vars' →
      lookupVar vars x ≠ lookupVar vars' x →
      memoLookup (exprKey e vars') (evalDP e vars initDP).1.memo = none ∧
      (evalDP e vars initDP).1.subproblemCount + 1 ≤
        (evalDP e vars' (evalDP e vars initDP).1).1.subproblemCount) := by
  constructor
  · intro e vars st0 st1 v h
    have hmem := evalDP_memoized_on_success e vars st0 st1 v h
    rw [evalDP]
    dsimp only
    rw [hmem]
  · intro e vars vars' x h1 h2 hdiff
    have hmiss : memoLookup (exprKey e vars') (evalDP e vars initDP).1.memo = none := by
      cases hlk : memoLookup (exprKey e vars') (evalDP e vars initDP).1.memo with
      | none => rfl
      | some w =>
        exfalso
        have hsnap := evalDP_memo_extends e vars initDP (exprKey e vars') w hlk
          (by simp [initDP, memoLookup])
        have hsnap2 : snapVars vars' = snapVars vars := hsnap
        exact hdiff (snapVars_inj_lookup vars vars' h1 h2 hsnap2.symm x)
    exact ⟨hmiss, evalDP_subCount_on_miss e vars' _ hmiss⟩

/-- Witness for `claim5_cache_correctness` at a concrete expression,
binding, and changed binding. -/
theorem claim5_cache_correctness_witness :
    evalDP (AST.var "x") [("x", Value.num 2)]
        ⟨[((ReprT.rvar "x", [("x", Value.num 2)]), Value.num 2)], 1, 0⟩ =
      (⟨[((ReprT.rvar "x", [("x", Value.num 2)]), Value.num 2)], 1, 1⟩,
        Except.ok (Value.num 2)) ∧
    (memoLookup (exprKey (AST.var "x") [("x", Value.num 3)])
        (evalDP (AST.var "x") [("x", Value.num 2)] initDP).1.memo = none ∧
      (evalDP (AST.var "x") [("x", Value.num 2)] initDP).1.subproblemCount + 1 ≤
        (evalDP (AST.var "x") [("x", Value.num 3)]
          (evalDP (AST.var "x") [("x", Value.num 2)] initDP).1).1.subproblemCount) :=
  ⟨claim5_cache_correctness.1 (AST.var "x") [("x", Value.num 2)] initDP
      ⟨[((ReprT.rvar "x", [("x", Value.num 2)]), Value.num 2)], 1, 0⟩
      (Value.num 2) rfl,
   claim5_cache_correctness.2 (AST.var "x") [("x", Value.num 2)]
      [("x", Value.num 3)] "x" (by simp [KeysNodup]) (by simp [KeysNodup])
      (by decide)⟩
